import Mathlib

/-!
The program ttab: a running-total calculator with history, undo and text logs.

A shallow embedding of `src/ttab.c` (version 0.94).

Conventions of the embedding.

* C `double` values are exact rationals (`ℚ`): the arithmetic of the program is
  modelled without rounding, infinities or NaN, and there is a single zero.
  The statements about sums and printed totals are therefore made where the
  doubles of the program are exact, or as equalities between two results the
  program computes in the same way.  The section on values that are not finite
  has `clear_register` and `undo_prev` for infinities and NaN.
* C strings and character buffers are `List Char`; the byte `NUL` ends a string.
* The process globals `total`, `entered`, `saveLocation`, `mode`, `history` are
  the fields of `State`.  The global `line` is an argument (what `fgets` left
  in it) and the scratch global `counter` is left out.  `current` always points
  to `entered`.
* The local time is an argument (`Tm`), as is every byte the program reads
  without having written it (`malloc` memory, the automatic array `good`, the
  bytes in front of `line`).
* Text sent to the terminal is not part of the state; the line that
  `truncate_zeroes` prints is the result of the functions that print a total.
-/

namespace Ttab

/-! ## Constants -/

/-- `#define DATE_STRING_LEN 25`. -/
def DATE_STRING_LEN : Nat := 25

/-- `#define NUM_STRING_LEN 64`. -/
def NUM_STRING_LEN : Nat := 64

/-- `#define MAX_STRING_LEN 80`. -/
def MAX_STRING_LEN : Nat := 80

/-! ## C strings -/

/-- The terminating byte of a C string. -/
def NUL : Char := Char.ofNat 0

/-- The C string stored in a buffer: the bytes in front of the first `NUL`. -/
def cstr (buf : List Char) : List Char :=
  buf.takeWhile (fun c => c != NUL)

/-- `strlen`. -/
def strlen (buf : List Char) : Nat :=
  (cstr buf).length

/-- Reading `s[i]` in a string held as the list of its bytes; the terminator is
read at `i = strlen s`. -/
def charAt (s : List Char) (i : Nat) : Char :=
  s.getD i NUL

/-- `strcmp(a, b) == 0`. -/
def streq (a b : List Char) : Bool :=
  cstr a == cstr b

/-- `isspace` in the C locale. -/
def isspace (c : Char) : Bool :=
  c == ' ' || (9 ≤ c.toNat && c.toNat ≤ 13)

/-- `isdigit`. -/
def isdigit (c : Char) : Bool :=
  48 ≤ c.toNat && c.toNat ≤ 57

/-- Value of a decimal digit. -/
def digitVal (c : Char) : Nat :=
  c.toNat - 48

/-- Value of a run of decimal digits. -/
def natOfDigits (ds : List Char) : Nat :=
  ds.foldl (fun n c => 10 * n + digitVal c) 0

/-- The result of `fgets(buf, n, stream)` called again and again until it
returns NULL: each call takes bytes up to and including a newline, at most
`n - 1` of them.  `cur` holds the bytes of the call in progress, last first. -/
def fgets_all (n : Nat) : List Char → List Char → List (List Char)
  | [], cur => if cur.isEmpty then [] else [cur.reverse]
  | c :: cs, cur =>
    if c == '\n' || cur.length + 2 ≥ n then (c :: cur).reverse :: fgets_all n cs []
    else fgets_all n cs (c :: cur)

/-- `strtok(s, " ")` called until it returns NULL: the maximal runs of bytes
other than the space.  `cur` holds the token in progress, last first. -/
def strtok_all : List Char → List Char → List (List Char)
  | [], cur => if cur.isEmpty then [] else [cur.reverse]
  | c :: cs, cur =>
    if c == ' ' then (if cur.isEmpty then strtok_all cs [] else cur.reverse :: strtok_all cs [])
    else strtok_all cs (c :: cur)

/-! ## Reading numbers -/

/-- The exponent part of a decimal floating constant: `e` or `E`, an optional
sign and at least one digit.  Without a digit the exponent is not part of the
number. -/
def scan_exponent (s : List Char) : Int :=
  match s with
  | e :: r =>
    if e == 'e' || e == 'E' then
      match r with
      | '-' :: r1 =>
        let ds := r1.takeWhile isdigit
        if ds.isEmpty then 0 else - (natOfDigits ds : Int)
      | '+' :: r1 => (natOfDigits (r1.takeWhile isdigit) : Int)
      | _ => (natOfDigits (r.takeWhile isdigit) : Int)
    else 0
  | [] => 0

/-- Scale by a power of ten. -/
def scale10 (m : ℚ) (ex : Int) : ℚ :=
  if 0 ≤ ex then m * ((10 ^ ex.toNat : Nat) : ℚ) else m / ((10 ^ (-ex).toNat : Nat) : ℚ)

/-- The decimal subject sequence of `strtod`: optional white space, an optional
sign, digits with an optional point (at least one digit), an optional exponent.
`none` when no conversion can be made.  The hexadecimal, `INF` and `NAN` forms
are outside the model (`INF` and `NAN` have no rational value). -/
def strtod (s : List Char) : Option ℚ :=
  let s1 := s.dropWhile isspace
  let neg := charAt s1 0 == '-'
  let s2 := if charAt s1 0 == '-' || charAt s1 0 == '+' then s1.drop 1 else s1
  let ip := s2.takeWhile isdigit
  let s3 := s2.dropWhile isdigit
  let fp := if charAt s3 0 == '.' then (s3.drop 1).takeWhile isdigit else []
  let s4 := if charAt s3 0 == '.' then (s3.drop 1).dropWhile isdigit else s3
  if ip.isEmpty && fp.isEmpty then none
  else
    let mant : ℚ := (natOfDigits (ip ++ fp) : ℚ) / ((10 ^ fp.length : Nat) : ℚ)
    let v := scale10 mant (scan_exponent s4)
    some (if neg then -v else v)

/-- `atof`: the value `strtod` converts, 0 when there is none.  The value is
the exact one; the `double` of the program is the nearest one to it. -/
def atof (s : List Char) : ℚ :=
  (strtod (cstr s)).getD 0

/-- The directive `%d` of `sscanf`: optional white space, an optional sign and
at least one digit.  The value is not reduced to the range of `int`. -/
def scan_d (s : List Char) : Option Int :=
  let s1 := s.dropWhile isspace
  let neg := charAt s1 0 == '-'
  let s2 := if charAt s1 0 == '-' || charAt s1 0 == '+' then s1.drop 1 else s1
  let ds := s2.takeWhile isdigit
  if ds.isEmpty then none
  else some (if neg then - (natOfDigits ds : Int) else (natOfDigits ds : Int))

/-! ## Writing numbers -/

/-- Decimal digits of a natural number, most significant first. -/
def natDigits (n : Nat) : List Char :=
  Nat.toDigits 10 n

/-- Digits of `n` padded with zeros on the left to width `w`. -/
def padDigits (w n : Nat) : List Char :=
  List.replicate (w - (natDigits n).length) '0' ++ natDigits n

/-- Removal of the zeros that end a run of digits. -/
def stripZeros (ds : List Char) : List Char :=
  (ds.reverse.dropWhile (fun c => c == '0')).reverse

/-- Rounding of `p / q` to the nearest natural number, ties to even. -/
def roundHalfEven (p q : Nat) : Nat :=
  if 2 * (p % q) < q then p / q
  else if q < 2 * (p % q) then p / q + 1
  else if (p / q) % 2 = 0 then p / q else p / q + 1

/-- The least `k` from `k` on, within `fuel` steps, with `q ≤ p * 10 ^ k`. -/
def firstScale (p q : Nat) : Nat → Nat → Nat
  | 0, k => k
  | fuel + 1, k => if q ≤ p * 10 ^ k then k else firstScale p q fuel (k + 1)

/-- The decimal exponent of `p / q` for `0 < p`: the `e` with
`10 ^ e ≤ p / q < 10 ^ (e + 1)`. -/
def exp10 (p q : Nat) : Int :=
  if q ≤ p then ((natDigits (p / q)).length : Int) - 1
  else - (firstScale p q (natDigits q).length 1 : Int)

/-- The six significant digits of `p / q` at decimal exponent `e`, as the
natural number nearest to `p / q * 10 ^ (5 - e)`. -/
def sixDigits (p q : Nat) (e : Int) : Nat :=
  if e ≤ 5 then roundHalfEven (p * 10 ^ (5 - e).toNat) q
  else roundHalfEven p (q * 10 ^ (e - 5).toNat)

/-- The conversion `%g` of `printf` (precision 6, no flags): style `%e` when the
decimal exponent is below -4 or at least 6, style `%f` otherwise, in both with
the zeros that end the fraction removed, and the point too when no fraction is
left. -/
def fmt_g (v : ℚ) : List Char :=
  let p := v.num.natAbs
  let q := v.den
  if p = 0 then ['0']
  else
    let sign := if v < 0 then ['-'] else []
    let e0 := exp10 p q
    let m0 := sixDigits p q e0
    let m := if 10 ^ 6 ≤ m0 then m0 / 10 else m0
    let x := if 10 ^ 6 ≤ m0 then e0 + 1 else e0
    if -4 ≤ x ∧ x < 6 then
      let k := (5 - x).toNat
      let fr := stripZeros (padDigits k (m % 10 ^ k))
      sign ++ natDigits (m / 10 ^ k) ++ (if k = 0 ∨ fr.isEmpty then [] else '.' :: fr)
    else
      let fr := stripZeros (padDigits 5 (m % 10 ^ 5))
      sign ++ natDigits (m / 10 ^ 5) ++ (if fr.isEmpty then [] else '.' :: fr)
        ++ ['e', (if x < 0 then '-' else '+')] ++ padDigits 2 x.natAbs

/-! ## The clock -/

/-- The fields of `struct tm` that `get_date_string` reads. -/
structure Tm where
  tm_year : Nat
  tm_mon : Nat
  tm_mday : Nat
  tm_hour : Nat
  tm_min : Nat
  tm_sec : Nat

/-- The date string of `get_date_string`, for the local time `theTime`:
`yyyy-mm-dd_hh-mm-ss` when quicksaving, `yyyy-mm-dd  hh:mm:ss` otherwise, each
field printed with `%02d`. -/
def get_date_string (theTime : Tm) (quickSaving : Bool) : List Char :=
  if quickSaving then
    padDigits 2 (theTime.tm_year + 1900) ++ ['-'] ++ padDigits 2 (theTime.tm_mon + 1) ++ ['-']
      ++ padDigits 2 theTime.tm_mday ++ ['_'] ++ padDigits 2 theTime.tm_hour ++ ['-']
      ++ padDigits 2 theTime.tm_min ++ ['-'] ++ padDigits 2 theTime.tm_sec
  else
    padDigits 2 (theTime.tm_year + 1900) ++ ['-'] ++ padDigits 2 (theTime.tm_mon + 1) ++ ['-']
      ++ padDigits 2 theTime.tm_mday ++ [' ', ' '] ++ padDigits 2 theTime.tm_hour ++ [':']
      ++ padDigits 2 theTime.tm_min ++ [':'] ++ padDigits 2 theTime.tm_sec

/-! ## The ledger -/

/-- The payload of `struct action`.  The links `next` and `prev` are the
position of the node in `State`. -/
structure action where
  number : ℚ
  runningTotal : ℚ
  date : List Char
  commentCode : Char
deriving DecidableEq

/-- The globals of the program.  `history` is the node the global `history`
points to and `prevs` the nodes reached from it through `prev`, nearest first:
`history->prev` is NULL exactly when `prevs` is empty.  Every node is entered
with `prev = history` and left through `history = history->prev`, so the chain
through `next` from the global `undo` is `prevs` reversed, then `history`. -/
structure State where
  total : ℚ
  entered : ℚ
  saveLocation : Option (List Char)
  mode : Char
  history : action
  prevs : List action
deriving DecidableEq

/-- The node the global `undo` points to: the first node of the chain. -/
def undo (s : State) : action :=
  (s.history :: s.prevs).getLast (List.cons_ne_nil _ _)

/-- The nodes of the chain in the order `print_log` visits them. -/
def chain (s : State) : List action :=
  (s.history :: s.prevs).reverse

/-- A node from `create_node`: `malloc` memory (`junk`) with `number` and
`runningTotal` set to 0; the date and the comment code are left as they
were. -/
def create_node (junk : action) : action :=
  { junk with number := 0, runningTotal := 0 }

/-- The state `main` builds before its loop: two nodes, `undo` and after it
`history`. -/
def main_init (junk0 junk1 : action) : State :=
  { total := 0, entered := 0, saveLocation := none, mode := NUL,
    history := create_node junk1, prevs := [create_node junk0] }

/-- `add_to_undo(current, cc)`: a new node after `history`, holding `*current`,
the value of `total` at the call, the date and the code. -/
def add_to_undo (theTime : Tm) (s : State) (cc : Char) : State :=
  { s with
    history :=
      { number := s.entered, runningTotal := s.total,
        date := (get_date_string theTime false).take DATE_STRING_LEN, commentCode := cc },
    prevs := s.history :: s.prevs }

/-- `do_math(current)`. -/
def do_math (theTime : Tm) (s : State) : State :=
  if s.mode = '-' then
    add_to_undo theTime { s with total := s.total - s.entered } 's'
  else if s.entered < 0 then
    add_to_undo theTime { s with total := s.total + s.entered } 's'
  else if 0 < s.entered then
    add_to_undo theTime { s with total := s.total + s.entered } 'a'
  else { s with total := s.total + s.entered }

/-- `undo_prev()`. -/
def undo_prev (s : State) : State :=
  match s.prevs with
  | [] => s
  | p :: ps => { s with total := s.total - s.history.number, history := p, prevs := ps }

/-- `clear_register(current)`, on a finite total (`clear_register_ext` is the
function on totals that may be non-finite). -/
def clear_register (theTime : Tm) (s : State) : State :=
  let s1 := add_to_undo theTime { s with entered := s.total * -1 } 'R'
  { s1 with total := s1.total - s1.total }

/-! ## The log -/

/-- The line of 40 dashes of the log header. -/
def separator : List Char :=
  List.replicate 40 '-'

/-- What `print_log` writes for one node. -/
def print_action (a : action) : List Char :=
  if a.commentCode = NUL then []
  else
    cstr a.date
      ++ (if a.commentCode = 'a' then "\t+".toList ++ fmt_g a.number ++ ['\n']
          else if a.commentCode = 's' then ['\t'] ++ fmt_g a.number ++ ['\n']
          else if a.commentCode = 'u' then
            "\tUNDO\n".toList ++ cstr a.date ++ ['\t'] ++ fmt_g a.number ++ ['\n']
          else if a.commentCode = 'R' then
            "\tREGISTER CLEARED\n".toList ++ cstr a.date ++ ['\t'] ++ fmt_g a.number ++ ['\n']
          else "I DON\x27T KNOW WHAT I\x27M DOING\n".toList)
      ++ cstr a.date ++ "\tTotal:  ".toList ++ fmt_g a.runningTotal ++ "\n\n".toList

/-- The text `print_log(fp)` writes. -/
def print_log (s : State) : List Char :=
  '\n' :: ((chain s).map print_action).flatten

/-- The text `save_file` writes to the file, when one of its calls of `fopen`
succeeds; the location and the `~` replacement do not change the text. -/
def save_file (theTime : Tm) (s : State) : List Char :=
  separator ++ "\nTTAB LOG\n".toList ++ "Created ".toList ++ get_date_string theTime false
    ++ ['\n'] ++ separator ++ "\n\n".toList ++ print_log s

/-! ## Interpreting one line of input -/

/-- An access of `get_entered` outside the object it indexes. -/
inductive Fault where
  | line_index (i : Int)
  | saveLocation_index (i : Int)
deriving DecidableEq

/-- What a call of `get_entered` that returns leaves behind: the globals
(`*current` is `st.entered`), the calls of `save_file` as pairs of the location
and the text for the file, and the out-of-range accesses it made. -/
structure Entered where
  st : State
  saved : List (List Char × List Char)
  faults : List Fault
deriving DecidableEq

/-- How a call of `get_entered` ends: `exit(0)`, a use of the NULL
`saveLocation`, or a return. -/
inductive Outcome where
  | exited
  | crashed
  | returned (r : Entered)
deriving DecidableEq

/-- Reading `line[i]`.  `below k` is the byte `k` places in front of the array
`line`, read when the index is negative. -/
def lineAt (below : Nat → Char) (line : List Char) (i : Int) : Char :=
  if i < 0 then below (-i).toNat else charAt line i.toNat

/-- `strcmp(&line[i], lit) == 0` for a literal `lit`. -/
def streq_at (below : Nat → Char) (line : List Char) (i : Int) (lit : List Char) : Bool :=
  (List.range (lit.length + 1)).all (fun j => lineAt below line (i + (j : Int)) == charAt lit j)

/-- The loop of the custom save: up to the first newline, every space sets
`saveLocation` to a copy of the bytes after it. -/
def scan_spaces (saveLocation : Option (List Char)) : List Char → Option (List Char)
  | [] => saveLocation
  | c :: rest =>
    if c == '\n' then saveLocation
    else if c == ' ' then scan_spaces (some rest) rest
    else scan_spaces saveLocation rest

/-- The block "User wants to save w/custom filename".  `none` is the use of a
NULL `saveLocation`. -/
def save_custom (theTime : Tm) (s : State) (line : List Char) : Option Entered :=
  if charAt line 0 = 's' ∧ line ≠ "s\n".toList then
    match scan_spaces s.saveLocation line with
    | none => none
    | some loc =>
      let s1 := { s with saveLocation := some loc.dropLast }
      some { st := s1, saved := [(loc.dropLast, save_file theTime s1)],
             faults := if loc.isEmpty then [Fault.saveLocation_index (-1)] else [] }
  else some { st := s, saved := [], faults := [] }

/-- The block "User wants to quicksave". -/
def quicksave (theTime : Tm) (r : Entered) (line : List Char) : Entered :=
  if line = "/\n".toList ∨ line = "s\n".toList then
    match r.st.saveLocation with
    | none =>
      let loc := "ttab_".toList ++ get_date_string theTime true ++ ".log".toList
      let s1 := { r.st with saveLocation := some loc }
      { r with st := s1, saved := r.saved ++ [(loc, save_file theTime s1)] }
    | some loc => { r with saved := r.saved ++ [(loc, save_file theTime r.st)] }
  else r

/-- The block "Find the number" to the end of `get_entered`. -/
def find_number (below : Nat → Char) (r : Entered) (line : List Char) : Entered :=
  let temp : ℚ := (strtod line).getD 0
  let lineFront := charAt line 0
  let lineBack := lineAt below line ((line.length : Int) - 2)
  let s1 := { r.st with entered := if temp = 0 then 0 else temp }
  let s2 :=
    if lineFront = '+' ∨ lineBack = '+' then { s1 with mode := '+' }
    else if lineBack = '-' then { s1 with mode := '-' }
    else s1
  { r with st := s2,
           faults := r.faults ++
             (if line.length < 2 then [Fault.line_index ((line.length : Int) - 2)] else []) }

/-- `get_entered(current)`, on the string `fgets` left in `line`. -/
def get_entered (theTime : Tm) (below : Nat → Char) (s : State) (buf : List Char) : Outcome :=
  let line := cstr buf
  if charAt line 0 = 'q' ∨ charAt line 0 = 'Q' then Outcome.exited
  else if charAt line 0 = 'c' ∨ charAt line 0 = 'C' then
    Outcome.returned
      { st := { clear_register theTime s with entered := 0 }, saved := [], faults := [] }
  else if charAt line 0 = 'l' ∨ charAt line 0 = '*' then
    Outcome.returned { st := { s with entered := 0 }, saved := [], faults := [] }
  else if charAt line 0 = 'h' then
    Outcome.returned { st := { s with entered := 0 }, saved := [], faults := [] }
  else if charAt line 0 = 'u' then
    Outcome.returned { st := { undo_prev s with entered := 0 }, saved := [], faults := [] }
  else if line = "+\n".toList ∨ line = "..\n".toList ∨ charAt line 0 = '\n' then
    Outcome.returned
      { st := { s with entered := if s.history.commentCode = 'R' then 0 else s.history.number },
        saved := [], faults := [] }
  else if charAt line 0 = '.' ∧ charAt line 1 = '.' then
    let repeat_ : Int := (scan_d (line.drop 2)).getD 0
    Outcome.returned
      { st := { s with entered := s.history.number * (repeat_ : ℚ) }, saved := [], faults := [] }
  else if streq_at below line ((line.length : Int) - 3) "..\n".toList then
    let repeat_ : Int := (scan_d line).getD 0
    Outcome.returned
      { st := { s with entered := s.history.number * (repeat_ : ℚ) }, saved := [],
        faults := if line.length < 3 then [Fault.line_index ((line.length : Int) - 3)] else [] }
  else
    let rear : List Fault :=
      if line.length < 3 then [Fault.line_index ((line.length : Int) - 3)] else []
    if line = "-\n".toList then
      Outcome.returned
        { st := { s with entered := s.history.number * -1 }, saved := [], faults := rear }
    else
      match save_custom theTime s line with
      | none => Outcome.crashed
      | some r =>
        Outcome.returned
          (find_number below (quicksave theTime { r with faults := rear ++ r.faults } line) line)

/-- The guards of `get_entered` that end in a `return` or in `exit`: the line
goes on to "Find the number" when none of them holds. -/
def returns_early (below : Nat → Char) (line : List Char) : Bool :=
  decide (charAt line 0 = 'q' ∨ charAt line 0 = 'Q' ∨ charAt line 0 = 'c' ∨ charAt line 0 = 'C'
    ∨ charAt line 0 = 'l' ∨ charAt line 0 = '*' ∨ charAt line 0 = 'h' ∨ charAt line 0 = 'u'
    ∨ line = "+\n".toList ∨ line = "..\n".toList ∨ charAt line 0 = '\n'
    ∨ (charAt line 0 = '.' ∧ charAt line 1 = '.')
    ∨ streq_at below line ((line.length : Int) - 3) "..\n".toList = true
    ∨ line = "-\n".toList)

/-! ## The main loop -/

/-- What one turn of the loop of `main` is given: the local time, the bytes in
front of `line`, and the bytes `fgets` put into `line`. -/
structure Input where
  theTime : Tm
  below : Nat → Char
  line : List Char

/-- One turn of the loop of `main`: the mode is reset to `+`, the line is
interpreted and `do_math` commits the pending value. -/
def main_step (s : State) (i : Input) : Outcome :=
  match get_entered i.theTime i.below { s with mode := '+' } i.line with
  | Outcome.returned r => Outcome.returned { r with st := do_math i.theTime r.st }
  | Outcome.exited => Outcome.exited
  | Outcome.crashed => Outcome.crashed

/-- The loop of `main` over the given turns; `none` when the process ended
before they were used up. -/
def run (s : State) : List Input → Option State
  | [] => some s
  | i :: rest =>
    match main_step s i with
    | Outcome.returned r => run r.st rest
    | Outcome.exited => none
    | Outcome.crashed => none

/-! ## Printing the total -/

/-- The conversion `%lf` of `printf`, for a finite value: an optional `-`, the
integer part, a point and six decimals, the value rounded to the nearest, ties
to even.  The value rounded is the rational given; it is the value `printf`
rounds when a `double` holds that rational exactly. -/
def fmt_lf (v : ℚ) : List Char :=
  (if v < 0 then ['-'] else [])
    ++ natDigits (roundHalfEven (v.num.natAbs * 10 ^ 6) v.den / 10 ^ 6)
    ++ '.' :: padDigits 6 (roundHalfEven (v.num.natAbs * 10 ^ 6) v.den % 10 ^ 6)

/-- The array of `n` bytes after `snprintf(buf, n, ...)` has written `text` to
it: at most `n - 1` bytes of the text, then the terminator.  The bytes after
the terminator are never read; they are `NUL` here. -/
def snprintf (n : Nat) (text : List Char) : List Char :=
  text.take (n - 1) ++ List.replicate (n - (text.take (n - 1)).length) NUL

/-- The loop of `truncate_zeroes`, with `k = idx + 1`: while `idx >= 0` and `ch`
is `0` (and neither the point nor the terminator), `ch` becomes
`numString[idx]` and `idx` goes down by one.  The result is `idx + 1` and `ch`
at the exit. -/
def truncate_loop (numString : List Char) : Nat → Char → Nat × Char
  | 0, ch => (0, ch)
  | k + 1, ch =>
    if ch == '0' && (ch != '.' && ch != NUL) then truncate_loop numString k (charAt numString k)
    else (k + 1, ch)

/-- The index at which `truncate_zeroes` writes the terminator after its loop:
`idx + 1` when `ch` is the point and `idx + 2` otherwise. -/
def truncate_index (numString : List Char) : Nat :=
  let len := strlen numString
  let exit := truncate_loop numString len (charAt numString (len - 1))
  if exit.2 == '.' then exit.1 else exit.1 + 1

/-- The string in `numString` after the terminator is written at
`truncate_index`, with the newline `printf` adds.  It is what the program
prints when that index is inside the array; `print_truncated` looks at the
index first. -/
def truncated_string (numString : List Char) : List Char :=
  cstr (numString.set (truncate_index numString) NUL) ++ ['\n']

/-- What `truncate_zeroes` prints after its loop: `truncated_string`, or `none`
when `truncate_index` is outside the array `numString`: the write of the
terminator is then a write past the end of the array, and the behaviour of the
program is undefined. -/
def print_truncated (numString : List Char) : Option (List Char) :=
  if truncate_index numString < numString.length then some (truncated_string numString)
  else none

/-- The line `truncate_zeroes(total)` prints; `none` when it writes past the end
of `numString`. -/
def truncate_zeroes (total : ℚ) : Option (List Char) :=
  print_truncated (snprintf NUM_STRING_LEN (fmt_lf total))

/-! ## Batch summation -/

/-- The loop "Make a copy of the line but exclude comments" of `sum_log`: `ch`
is set once, to `line[0]`, and `good[i] = line[i]` runs for `i < strlen(line)`;
no terminator is written. -/
def exclude_comments (ch : Char) : List Char → Nat → List Char → List Char
  | [], _, good => good
  | c :: rest, i, good =>
    if ch == '#' then good else exclude_comments ch rest (i + 1) (good.set i c)

/-- The scan of `good` in ttab log mode: up to a newline, a `NUL` or the byte
that compares equal to `EOF`, the position after the first tab that is followed
by `+` or `-`. -/
def scan_number : List Char → Option (List Char)
  | [] => none
  | c :: rest =>
    if c == '\t' && (charAt rest 0 == '+' || charAt rest 0 == '-') then some rest
    else if c == '\n' || c == NUL || c.toNat == 255 then none
    else scan_number rest

/-- The variables of `sum_log` that live across its loop.  `good` is declared
in the body of the loop without an initialiser; it is the same storage at every
turn and keeps what the turn before left in it. -/
structure SumLog where
  ttabLogMode : Bool
  good : List Char
  total : ℚ
deriving DecidableEq

/-- One turn of the loop of `sum_log`, for the bytes `fgets` put into `line`. -/
def sum_log_line (st : SumLog) (line : List Char) : SumLog :=
  let good := exclude_comments (charAt (cstr line) 0) (cstr line) 0 st.good
  let ttabLogMode := st.ttabLogMode || streq good "TTAB LOG\n".toList
  if ttabLogMode then
    match scan_number good with
    | some numberLocation =>
      { ttabLogMode := ttabLogMode, good := good, total := st.total + atof numberLocation }
    | none => { ttabLogMode := ttabLogMode, good := good, total := st.total }
  else { ttabLogMode := ttabLogMode, good := good, total := st.total + atof good }

/-- The loop of `sum_log` over the lines `fgets` delivers; `good0` is what the
array `good` holds when the function is entered. -/
def sum_log_lines (good0 : List Char) (lines : List (List Char)) : ℚ :=
  (lines.foldl sum_log_line { ttabLogMode := false, good := good0, total := 0 }).total

/-- `sum_log(fp)`: the value of `total` it hands to `truncate_zeroes`. -/
def sum_log (good0 : List Char) (fp : List Char) : ℚ :=
  sum_log_lines good0 (fgets_all 80 fp [])

/-- The loop of `sum_log_stdin` over the lines `fgets` delivers: at the
separator line the rest of the input goes to `sum_log` and the process exits;
any other line is cut at spaces and every piece is added. -/
def sum_log_stdin_lines (good0 : List Char) : ℚ → List (List Char) → ℚ
  | total, [] => total
  | total, good :: rest =>
    if streq good (separator ++ ['\n']) then sum_log_lines good0 rest
    else sum_log_stdin_lines good0 (total + ((strtok_all (cstr good) []).map atof).sum) rest

/-- `sum_log_stdin()`: the value of `total` handed to `truncate_zeroes`.
`good0` is what the array `good` of `sum_log` holds if that function is
entered. -/
def sum_log_stdin (good0 : List Char) (stdin : List Char) : ℚ :=
  sum_log_stdin_lines good0 0 (fgets_all 80 stdin [])

/-- The line `sum_log(fp)` prints. -/
def sum_log_output (good0 : List Char) (fp : List Char) : Option (List Char) :=
  truncate_zeroes (sum_log good0 fp)

/-- The line `sum_log_stdin()` prints, through its own call of
`truncate_zeroes` or through the one in `sum_log`. -/
def sum_log_stdin_output (good0 : List Char) (stdin : List Char) : Option (List Char) :=
  truncate_zeroes (sum_log_stdin good0 stdin)

/-! ## Values that are not finite -/

/-- A C `double` with the values a rational does not have: a finite value (an
exact rational, as everywhere else), one of the two infinities, or a NaN.  The
line `inf` makes `sscanf` store an infinity. -/
inductive xdouble where
  | finite (q : ℚ)
  | pinf
  | ninf
  | nan
deriving DecidableEq

/-- The product `a * -1`. -/
def xdouble.negate : xdouble → xdouble
  | xdouble.finite q => xdouble.finite (q * -1)
  | xdouble.pinf => xdouble.ninf
  | xdouble.ninf => xdouble.pinf
  | xdouble.nan => xdouble.nan

/-- The difference `a - b`: a NaN when an operand is a NaN or both are the same
infinity. -/
def xdouble.sub : xdouble → xdouble → xdouble
  | xdouble.nan, _ => xdouble.nan
  | _, xdouble.nan => xdouble.nan
  | xdouble.finite a, xdouble.finite b => xdouble.finite (a - b)
  | xdouble.finite _, xdouble.pinf => xdouble.ninf
  | xdouble.finite _, xdouble.ninf => xdouble.pinf
  | xdouble.pinf, xdouble.pinf => xdouble.nan
  | xdouble.pinf, xdouble.finite _ => xdouble.pinf
  | xdouble.pinf, xdouble.ninf => xdouble.pinf
  | xdouble.ninf, xdouble.ninf => xdouble.nan
  | xdouble.ninf, xdouble.finite _ => xdouble.ninf
  | xdouble.ninf, xdouble.pinf => xdouble.ninf

/-- A node of the history whose numbers may be non-finite; the date is left
out. -/
structure xaction where
  number : xdouble
  runningTotal : xdouble
  commentCode : Char
deriving DecidableEq

/-- The total, the pending value and the history when the numbers may be
non-finite: `history` is the tail and `prevs` its predecessors, nearest
first. -/
structure xstate where
  total : xdouble
  entered : xdouble
  history : xaction
  prevs : List xaction
deriving DecidableEq

/-- `clear_register(current)` on numbers that may be non-finite:
`*current = total * -1`, a node with that number, the total at the call and the
code `R`, and then `total -= total`. -/
def clear_register_ext (s : xstate) : xstate :=
  { total := (s.total).sub s.total,
    entered := (s.total).negate,
    history := { number := (s.total).negate, runningTotal := s.total, commentCode := 'R' },
    prevs := s.history :: s.prevs }

/-- `undo_prev()` on numbers that may be non-finite. -/
def undo_prev_ext (s : xstate) : xstate :=
  match s.prevs with
  | [] => s
  | p :: ps => { s with total := (s.total).sub s.history.number, history := p, prevs := ps }

/-! ## Sample data -/

/-- A reading of the clock: 3 April 2021, 12:00:00. -/
def noon : Tm :=
  { tm_year := 121, tm_mon := 3, tm_mday := 3, tm_hour := 12, tm_min := 0, tm_sec := 0 }

/-- Memory from `malloc` that holds zero bytes. -/
def zeroed : action :=
  { number := 0, runningTotal := 0, date := [], commentCode := NUL }

/-- A buffer of `MAX_STRING_LEN` zero bytes. -/
def zeroes : List Char :=
  List.replicate MAX_STRING_LEN NUL

/-- The ledger of a session that has just started, on zeroed memory. -/
def fresh : State :=
  main_init zeroed zeroed

/-- A line typed at noon, with zero bytes in front of `line`. -/
def typed (text : String) : Input :=
  { theTime := noon, below := fun _ => NUL, line := text.toList }

/-- The sum of the `number` fields of the nodes of the chain. -/
def sum_numbers (s : State) : ℚ :=
  ((chain s).map action.number).sum

/-- The line reaches the block "Find the number": no guard in front of it ends
the call, and the custom save does not use a NULL `saveLocation`. -/
def reaches_find_number (theTime : Tm) (below : Nat → Char) (s : State) (line : List Char) :
    Bool :=
  !returns_early below line && (save_custom theTime s line).isSome

/-- The globals a call of `get_entered` returns with, if it returns. -/
def Outcome.state : Outcome → Option State
  | Outcome.returned r => some r.st
  | Outcome.exited => none
  | Outcome.crashed => none

/-- What a call of `get_entered` leaves behind, if it returns. -/
def Outcome.entered : Outcome → Option Entered
  | Outcome.returned r => some r
  | Outcome.exited => none
  | Outcome.crashed => none

/-- An integer written in decimal, as `%d` prints it. -/
def intDigits (n : Int) : List Char :=
  if n < 0 then '-' :: natDigits n.natAbs else natDigits n.natAbs

/-- The stream that holds the given lines, each followed by a newline. -/
def stream_of_lines : List (List Char) → List Char
  | [] => []
  | X :: rest => X ++ '\n' :: stream_of_lines rest

/-- A line, without its newline, that `fgets` delivers whole and `strtok` leaves
in one piece: no `NUL`, no newline and no space in it, at most 78 bytes, and
not the 40 dashes of the separator. -/
def one_token (X : List Char) : Bool :=
  X.all (fun c => c != NUL && c != '\n' && c != ' ')
    && decide (X.length + 2 ≤ MAX_STRING_LEN) && X != separator

/-- A line of one token that does not start with white space or with `#`. -/
def plain_number (X : List Char) : Bool :=
  one_token X && !X.isEmpty && !isspace (charAt X 0) && charAt X 0 != '#'

/-- No turn of the run commits a non-zero value in mode `-`: after each call of
`get_entered` that returns, the mode is not `-` or the pending value is 0. -/
def no_minus_commit (s : State) : List Input → Bool
  | [] => true
  | i :: rest =>
    match main_step s i with
    | Outcome.returned r =>
      decide (r.st.mode ≠ '-' ∨ r.st.entered = 0) && no_minus_commit r.st rest
    | Outcome.exited => true
    | Outcome.crashed => true

/-- A node as the operations of the program record it: the code is `a`, `s` or
`R`, and with the code `a` the number is positive. -/
def recorded_ok (a : action) : Bool :=
  (a.commentCode == 'a' && decide (0 < a.number)) || a.commentCode == 's'
    || a.commentCode == 'R'

/-- The history of a session that started with the nodes `create_node junk0`
and `create_node junk1`: nodes that are `recorded_ok`, after both nodes of the
start or, once an undo has removed the second, after the first. -/
def ledger_ok (junk0 junk1 : action) (s : State) : Prop :=
  ∃ appended : List action,
    (s.history :: s.prevs = appended ++ [create_node junk1, create_node junk0]
      ∨ s.history :: s.prevs = appended ++ [create_node junk0])
    ∧ ∀ a ∈ appended, recorded_ok a = true

/-- Committing in mode `-` and undoing moves the total by twice the value. -/
theorem undo_prev_do_math_minus (theTime : Tm) (s : State) (x : ℚ) :
    (undo_prev (do_math theTime { s with mode := '-', entered := x })).total
      = s.total - x - x := by
  simp [do_math, add_to_undo, undo_prev]

/-- Committing a non-zero value in a mode other than `-` and undoing restores
the total. -/
theorem undo_prev_do_math_plus (theTime : Tm) (s : State) (x : ℚ) (hm : s.mode ≠ '-')
    (hx : x ≠ 0) :
    (undo_prev (do_math theTime { s with entered := x })).total = s.total := by
  rcases lt_or_gt_of_ne hx with h | h
  · simp [do_math, add_to_undo, undo_prev, hm, h]
  · have h2 : ¬ x < 0 := not_lt.mpr (le_of_lt h)
    simp [do_math, add_to_undo, undo_prev, hm, h2, gt_iff_lt.mp h]

/-- A node `do_math` records holds the total from after the operation. -/
theorem do_math_runningTotal (theTime : Tm) (s : State) (h : s.mode = '-' ∨ s.entered ≠ 0) :
    (do_math theTime s).prevs = s.history :: s.prevs
      ∧ (do_math theTime s).history.runningTotal = (do_math theTime s).total := by
  unfold do_math
  split
  · exact ⟨rfl, rfl⟩
  · rename_i hm
    split
    · exact ⟨rfl, rfl⟩
    · split
      · exact ⟨rfl, rfl⟩
      · rename_i h1 h2
        have h0 : s.entered = 0 := le_antisymm (not_lt.mp h2) (not_lt.mp h1)
        rcases h with h | h
        · exact absurd h hm
        · exact absurd h0 h

/-- The node `clear_register` records holds the total from before the clear. -/
theorem clear_register_runningTotal (theTime : Tm) (s : State) :
    (clear_register theTime s).history.runningTotal = s.total
      ∧ (clear_register theTime s).total = 0 := by
  simp [clear_register, add_to_undo]

/-! ### The total and the sum of the recorded numbers -/

/-- The custom save leaves the total and the history alone. -/
theorem save_custom_ledger (theTime : Tm) (s : State) (line : List Char) (r : Entered)
    (h : save_custom theTime s line = some r) :
    r.st.total = s.total ∧ r.st.history = s.history ∧ r.st.prevs = s.prevs := by
  unfold save_custom at h
  split at h
  · split at h
    · exact absurd h (by simp)
    · simp only [Option.some.injEq] at h
      rw [← h]
      exact ⟨rfl, rfl, rfl⟩
  · simp only [Option.some.injEq] at h
    rw [← h]
    exact ⟨rfl, rfl, rfl⟩

/-- The quicksave leaves the total and the history alone. -/
theorem quicksave_ledger (theTime : Tm) (r : Entered) (line : List Char) :
    (quicksave theTime r line).st.total = r.st.total
      ∧ (quicksave theTime r line).st.history = r.st.history
      ∧ (quicksave theTime r line).st.prevs = r.st.prevs := by
  unfold quicksave
  split
  · split <;> exact ⟨rfl, rfl, rfl⟩
  · exact ⟨rfl, rfl, rfl⟩

/-- "Find the number" leaves the total and the history alone. -/
theorem find_number_ledger (below : Nat → Char) (r : Entered) (line : List Char) :
    (find_number below r line).st.total = r.st.total
      ∧ (find_number below r line).st.history = r.st.history
      ∧ (find_number below r line).st.prevs = r.st.prevs := by
  dsimp only [find_number]
  split
  · exact ⟨rfl, rfl, rfl⟩
  · split <;> exact ⟨rfl, rfl, rfl⟩

/-- A call of `get_entered` that returns has left the total and the history as
they were, or as `clear_register` leaves them, or as `undo_prev` leaves
them. -/
theorem get_entered_ledger (theTime : Tm) (below : Nat → Char) (s : State) (buf : List Char)
    (r : Entered) (h : get_entered theTime below s buf = Outcome.returned r) :
    (r.st.total = s.total ∧ r.st.history = s.history ∧ r.st.prevs = s.prevs)
      ∨ (r.st.total = (clear_register theTime s).total
          ∧ r.st.history = (clear_register theTime s).history
          ∧ r.st.prevs = (clear_register theTime s).prevs)
      ∨ (r.st.total = (undo_prev s).total ∧ r.st.history = (undo_prev s).history
          ∧ r.st.prevs = (undo_prev s).prevs) := by
  unfold get_entered at h
  dsimp only at h
  by_cases h1 : charAt (cstr buf) 0 = 'q' ∨ charAt (cstr buf) 0 = 'Q'
  · rw [if_pos h1] at h
    exact absurd h (by simp)
  rw [if_neg h1] at h
  by_cases h2 : charAt (cstr buf) 0 = 'c' ∨ charAt (cstr buf) 0 = 'C'
  · rw [if_pos h2, Outcome.returned.injEq] at h
    rw [← h]
    exact Or.inr (Or.inl ⟨rfl, rfl, rfl⟩)
  rw [if_neg h2] at h
  by_cases h3 : charAt (cstr buf) 0 = 'l' ∨ charAt (cstr buf) 0 = '*'
  · rw [if_pos h3, Outcome.returned.injEq] at h
    rw [← h]
    exact Or.inl ⟨rfl, rfl, rfl⟩
  rw [if_neg h3] at h
  by_cases h4 : charAt (cstr buf) 0 = 'h'
  · rw [if_pos h4, Outcome.returned.injEq] at h
    rw [← h]
    exact Or.inl ⟨rfl, rfl, rfl⟩
  rw [if_neg h4] at h
  by_cases h5 : charAt (cstr buf) 0 = 'u'
  · rw [if_pos h5, Outcome.returned.injEq] at h
    rw [← h]
    exact Or.inr (Or.inr ⟨rfl, rfl, rfl⟩)
  rw [if_neg h5] at h
  by_cases h6 : cstr buf = "+\n".toList ∨ cstr buf = "..\n".toList ∨ charAt (cstr buf) 0 = '\n'
  · rw [if_pos h6, Outcome.returned.injEq] at h
    rw [← h]
    exact Or.inl ⟨rfl, rfl, rfl⟩
  rw [if_neg h6] at h
  by_cases h7 : charAt (cstr buf) 0 = '.' ∧ charAt (cstr buf) 1 = '.'
  · rw [if_pos h7, Outcome.returned.injEq] at h
    rw [← h]
    exact Or.inl ⟨rfl, rfl, rfl⟩
  rw [if_neg h7] at h
  by_cases h8 : streq_at below (cstr buf) (((cstr buf).length : Int) - 3) "..\n".toList = true
  · rw [if_pos h8, Outcome.returned.injEq] at h
    rw [← h]
    exact Or.inl ⟨rfl, rfl, rfl⟩
  rw [if_neg h8] at h
  by_cases h9 : cstr buf = "-\n".toList
  · rw [if_pos h9, Outcome.returned.injEq] at h
    rw [← h]
    exact Or.inl ⟨rfl, rfl, rfl⟩
  rw [if_neg h9] at h
  cases hr0 : save_custom theTime s (cstr buf) with
  | none =>
    rw [hr0] at h
    exact absurd h (by simp)
  | some r0 =>
    rw [hr0] at h
    simp only [Outcome.returned.injEq] at h
    rw [← h]
    obtain ⟨a1, a2, a3⟩ := save_custom_ledger theTime s (cstr buf) r0 hr0
    obtain ⟨b1, b2, b3⟩ := find_number_ledger below (quicksave theTime
      { r0 with faults := (if (cstr buf).length < 3
          then [Fault.line_index (((cstr buf).length : Int) - 3)] else []) ++ r0.faults }
      (cstr buf)) (cstr buf)
    obtain ⟨c1, c2, c3⟩ := quicksave_ledger theTime
      { r0 with faults := (if (cstr buf).length < 3
          then [Fault.line_index (((cstr buf).length : Int) - 3)] else []) ++ r0.faults }
      (cstr buf)
    exact Or.inl ⟨by rw [b1, c1]; exact a1, by rw [b2, c2]; exact a2, by rw [b3, c3]; exact a3⟩

/-- The sum of the recorded numbers, from the last node backwards. -/
theorem sum_numbers_eq (s : State) :
    sum_numbers s = s.history.number + (s.prevs.map action.number).sum := by
  simp [sum_numbers, chain, List.sum_reverse, add_comm]

/-- `clear_register` keeps the total equal to the sum of the recorded
numbers. -/
theorem clear_register_sum_numbers (theTime : Tm) (s : State) (h : s.total = sum_numbers s) :
    (clear_register theTime s).total = sum_numbers (clear_register theTime s) := by
  rw [sum_numbers_eq] at h ⊢
  simp [clear_register, add_to_undo, ← h]

/-- `undo_prev` keeps the total equal to the sum of the recorded numbers. -/
theorem undo_prev_sum_numbers (s : State) (h : s.total = sum_numbers s) :
    (undo_prev s).total = sum_numbers (undo_prev s) := by
  obtain ⟨t, e, loc, m, a, ps⟩ := s
  rw [sum_numbers_eq] at h
  cases ps with
  | nil => simpa [undo_prev, sum_numbers_eq] using h
  | cons p ps =>
    simp only [undo_prev, sum_numbers_eq]
    simp only [List.map_cons, List.sum_cons] at h ⊢
    linarith

/-- `do_math` keeps the total equal to the sum of the recorded numbers, unless
it commits a non-zero value in mode `-`. -/
theorem do_math_sum_numbers (theTime : Tm) (s : State) (h : s.total = sum_numbers s)
    (hm : s.mode ≠ '-' ∨ s.entered = 0) :
    (do_math theTime s).total = sum_numbers (do_math theTime s) := by
  rw [sum_numbers_eq] at h
  unfold do_math
  split
  · rename_i hmode
    have h0 : s.entered = 0 := by
      rcases hm with hm | hm
      · exact absurd hmode hm
      · exact hm
    simp [add_to_undo, sum_numbers_eq, h0, h]
  · split
    · simp [add_to_undo, sum_numbers_eq, h]; ring
    · split
      · simp [add_to_undo, sum_numbers_eq, h]; ring
      · rename_i h1 h2
        have h0 : s.entered = 0 := le_antisymm (not_lt.mp h2) (not_lt.mp h1)
        simp [sum_numbers_eq, h0, h]

/-- In mode `-`, `do_math` on a non-zero value leaves the total different from
the sum of the recorded numbers when they agreed before. -/
theorem do_math_minus_sum_numbers (theTime : Tm) (s : State) (h : s.total = sum_numbers s)
    (hm : s.mode = '-') (hx : s.entered ≠ 0) :
    (do_math theTime s).total ≠ sum_numbers (do_math theTime s) := by
  rw [sum_numbers_eq] at h
  simp only [do_math, hm, if_true, add_to_undo, sum_numbers_eq, List.map_cons, List.sum_cons]
  intro hc
  apply hx
  linarith

/-- One turn of the main loop keeps the total equal to the sum of the recorded
numbers, unless the line made `get_entered` leave the mode `-` with a non-zero
pending value. -/
theorem main_step_sum_numbers (s : State) (i : Input) (r : Entered)
    (h : main_step s i = Outcome.returned r) (hs : s.total = sum_numbers s)
    (hm : r.st.mode ≠ '-' ∨ r.st.entered = 0) :
    r.st.total = sum_numbers r.st := by
  unfold main_step at h
  split at h
  · rename_i r0 hr0
    simp only [Outcome.returned.injEq] at h
    have hmode : (do_math i.theTime r0.st).mode = r0.st.mode := by
      unfold do_math; split
      · rfl
      · split
        · rfl
        · split <;> rfl
    have hent : (do_math i.theTime r0.st).entered = r0.st.entered := by
      unfold do_math; split
      · rfl
      · split
        · rfl
        · split <;> rfl
    rw [← h] at hm ⊢
    simp only [hmode, hent] at hm
    apply do_math_sum_numbers _ _ _ hm
    have hs2 : ({ s with mode := '+' } : State).total
        = sum_numbers ({ s with mode := '+' } : State) := by
      simpa [sum_numbers_eq] using (sum_numbers_eq s ▸ hs)
    rcases get_entered_ledger _ _ _ _ _ hr0 with ⟨a1, a2, a3⟩ | ⟨a1, a2, a3⟩ | ⟨a1, a2, a3⟩
    · rw [sum_numbers_eq, a1, a2, a3]
      rw [sum_numbers_eq] at hs2
      exact hs2
    · rw [sum_numbers_eq, a1, a2, a3, ← sum_numbers_eq]
      exact clear_register_sum_numbers _ _ hs2
    · rw [sum_numbers_eq, a1, a2, a3, ← sum_numbers_eq]
      exact undo_prev_sum_numbers _ hs2
  · exact absurd h (by simp)
  · exact absurd h (by simp)

/-- The ledger `main` builds has total 0 and recorded numbers that sum to 0. -/
theorem main_init_sum_numbers (junk0 junk1 : action) :
    (main_init junk0 junk1).total = sum_numbers (main_init junk0 junk1) := by
  simp [main_init, create_node, sum_numbers_eq]

/-- Along a run of the main loop from a state in which the total is the sum of
the recorded numbers, it stays so as long as no turn commits a non-zero value
in mode `-`. -/
theorem run_sum_numbers (inputs : List Input) :
    ∀ (s t : State), run s inputs = some t → s.total = sum_numbers s →
      no_minus_commit s inputs = true → t.total = sum_numbers t := by
  induction inputs with
  | nil =>
    intro s t h hs _
    simp only [run, Option.some.injEq] at h
    rw [← h]
    exact hs
  | cons i rest ih =>
    intro s t h hs hn
    unfold run at h
    unfold no_minus_commit at hn
    cases hstep : main_step s i with
    | exited => rw [hstep] at h; exact absurd h (by simp)
    | crashed => rw [hstep] at h; exact absurd h (by simp)
    | returned r =>
      rw [hstep] at h hn
      simp only [Bool.and_eq_true, decide_eq_true_eq] at hn
      exact ih r.st t h (main_step_sum_numbers s i r hstep hs hn.1) hn.2

/-- On a line whose first byte is `u`, one turn of the main loop returns with
the total and the history as `undo_prev` leaves them. -/
theorem main_step_undo (s : State) (i : Input) (h : charAt (cstr i.line) 0 = 'u') :
    ∃ r : Entered,
      main_step s i = Outcome.returned r
        ∧ r.st.total = (undo_prev s).total
        ∧ r.st.history = (undo_prev s).history
        ∧ r.st.prevs = (undo_prev s).prevs := by
  obtain ⟨t, e, loc, m, a, ps⟩ := s
  cases ps <;> simp [main_step, get_entered, h, do_math, undo_prev]

/-- When the node `history` does not have code `R`, each of the lines `\n`,
`+\n` and `..\n` adds the number of that node to the total. -/
theorem main_step_repeat (s : State) (i : Input) (hR : s.history.commentCode ≠ 'R')
    (hl : i.line = "\n".toList ∨ i.line = "+\n".toList ∨ i.line = "..\n".toList) :
    (main_step s i).state.map State.total = some (s.total + s.history.number) := by
  have key : ∀ x : ℚ, (do_math i.theTime
      { total := s.total, entered := x, saveLocation := s.saveLocation, mode := '+',
        history := s.history, prevs := s.prevs }).total = s.total + x := by
    intro x
    unfold do_math
    split
    · rename_i hc
      have hne : ('+' : Char) ≠ '-' := by decide
      exact absurd hc hne
    · split
      · rfl
      · split <;> rfl
  rcases hl with h | h | h <;>
    simp [main_step, get_entered, h, hR, cstr, NUL, charAt, Outcome.state, key]

/-! ### The loop of `sum_log` on saved logs -/

/-- The copy loop of `sum_log` overwrites the bytes of `good` from `pre.length`
on with the line and leaves the rest. -/
theorem exclude_comments_append (ch : Char) (h : (ch == '#') = false) :
    ∀ (line pre old rest : List Char), old.length = line.length →
      exclude_comments ch line pre.length (pre ++ old ++ rest) = pre ++ line ++ rest := by
  intro line
  induction line with
  | nil =>
    intro pre old rest hl
    have hnil : old = [] := List.length_eq_zero.mp hl
    simp [hnil, exclude_comments]
  | cons c cs ih =>
    intro pre old rest hl
    cases old with
    | nil => simp at hl
    | cons o os =>
      have hl2 : os.length = cs.length := by simpa using hl
      have hset : (pre ++ (o :: os) ++ rest).set pre.length c = (pre ++ [c]) ++ os ++ rest := by
        simp [List.set_append]
      have hstep := ih (pre ++ [c]) os rest hl2
      simp only [exclude_comments, h, hset]
      simpa using hstep

/-- The copy loop of `sum_log` on a line that does not start with `#`: the line
replaces the first bytes of `good`, and the bytes after them stay. -/
theorem exclude_comments_zero (ch : Char) (h : (ch == '#') = false) (line good : List Char)
    (hl : line.length ≤ good.length) :
    exclude_comments ch line 0 good = line ++ good.drop line.length := by
  have hstep := exclude_comments_append ch h line [] (good.take line.length)
    (good.drop line.length) (by simp [hl])
  simpa using hstep

/-- One turn of the loop of `sum_log` on a line without `NUL` that does not
start with `#`: the line is copied over the first bytes of `good`; in ttab log
mode the number after the first signed tab is added, outside it `atof(good)`. -/
theorem sum_log_line_copy (st : SumLog) (line : List Char) (hc : cstr line = line)
    (h : (charAt line 0 == '#') = false) (hl : line.length ≤ st.good.length) :
    sum_log_line st line =
      { ttabLogMode :=
          st.ttabLogMode || streq (line ++ st.good.drop line.length) "TTAB LOG\n".toList,
        good := line ++ st.good.drop line.length,
        total :=
          if (st.ttabLogMode || streq (line ++ st.good.drop line.length) "TTAB LOG\n".toList)
              = true
          then st.total + ((scan_number (line ++ st.good.drop line.length)).map atof).getD 0
          else st.total + atof (line ++ st.good.drop line.length) } := by
  obtain ⟨m0, g0, t0⟩ := st
  unfold sum_log_line
  dsimp only
  dsimp only at hl
  rw [hc, exclude_comments_zero _ h _ _ hl]
  generalize line ++ List.drop line.length g0 = good
  generalize streq good "TTAB LOG\n".toList = b
  cases m0 <;> cases b <;> cases hs : scan_number good <;> simp

/-- The first turn of `sum_log` on a saved log: the separator line is copied
over the first 41 bytes of `good`, whatever they were, and adds nothing. -/
theorem sum_log_line_separator (good0 : List Char) (hg : good0.length = 80) :
    sum_log_line { ttabLogMode := false, good := good0, total := 0 } (separator ++ ['\n'])
      = { ttabLogMode := false, good := separator ++ ['\n'] ++ good0.drop 41, total := 0 } := by
  rw [sum_log_line_copy _ _ (by decide) (by decide) (by simp [hg, separator])]
  simp [streq, cstr, NUL, separator, atof, strtod, isspace, isdigit, charAt]

set_option maxRecDepth 4000 in
/-- The turns of `sum_log` after the separator line, for the log of the single
entry `3-`: with any bytes after the first 41 of `good`, the total is 4063. -/
theorem sum_log_minus_entry (rest : List Char) :
    (List.foldl sum_log_line
      { ttabLogMode := false, good := separator ++ ['\n'] ++ rest, total := 0 }
      ["TTAB LOG\n".toList, "Created 2021-04-03  12:00:00\n".toList,
       "----------------------------------------\n".toList, "\n".toList, "\n".toList,
       "2021-04-03  12:00:00\t3\n".toList, "2021-04-03  12:00:00\tTotal:  -3\n".toList,
       "\n".toList]).total = 4063 := by
  generalize hF : List.foldl sum_log_line = F
  have hcons : ∀ (s : SumLog) (l : List Char) (ls : List (List Char)),
      F s (l :: ls) = F (sum_log_line s l) ls := by
    intro s l ls; rw [← hF]; rfl
  have hnil : ∀ s : SumLog, F s [] = s := by
    intro s; rw [← hF]; rfl
  iterate 8
    rw [hcons, sum_log_line_copy _ _ (by decide) (by decide) (by simp [separator])]
    simp [streq, scan_number, atof, strtod, cstr, NUL, charAt, isspace, isdigit, natOfDigits,
      digitVal, scan_exponent, scale10, separator]
  rw [hnil]
  norm_num

set_option maxRecDepth 4000 in
/-- The turns of `sum_log` after the separator line, for the log of the single
entry `5`: with any bytes after the first 41 of `good`, the total is 4063. -/
theorem sum_log_plus_entry (rest : List Char) :
    (List.foldl sum_log_line
      { ttabLogMode := false, good := separator ++ ['\n'] ++ rest, total := 0 }
      ["TTAB LOG\n".toList, "Created 2021-04-03  12:00:00\n".toList,
       "----------------------------------------\n".toList, "\n".toList, "\n".toList,
       "2021-04-03  12:00:00\t+5\n".toList, "2021-04-03  12:00:00\tTotal:  5\n".toList,
       "\n".toList]).total = 4063 := by
  generalize hF : List.foldl sum_log_line = F
  have hcons : ∀ (s : SumLog) (l : List Char) (ls : List (List Char)),
      F s (l :: ls) = F (sum_log_line s l) ls := by
    intro s l ls; rw [← hF]; rfl
  have hnil : ∀ s : SumLog, F s [] = s := by
    intro s; rw [← hF]; rfl
  iterate 8
    rw [hcons, sum_log_line_copy _ _ (by decide) (by decide) (by simp [separator])]
    simp [streq, scan_number, atof, strtod, cstr, NUL, charAt, isspace, isdigit, natOfDigits,
      digitVal, scan_exponent, scale10, separator]
  rw [hnil]
  norm_num

set_option maxRecDepth 4000 in
/-- The turns of `sum_log` after the second separator line of the log saved
after `5` and `c`: in ttab log mode the total is 0, outside it 10147, with any
bytes after the first 41 of `good`. -/
theorem sum_log_clear_entries (rest : List Char) (ttabLogMode : Bool) :
    (List.foldl sum_log_line
      { ttabLogMode := ttabLogMode, good := separator ++ ['\n'] ++ rest, total := 0 }
      ["\n".toList, "\n".toList,
       "2021-04-03  12:00:00\t+5\n".toList, "2021-04-03  12:00:00\tTotal:  5\n".toList,
       "\n".toList, "2021-04-03  12:00:00\tREGISTER CLEARED\n".toList,
       "2021-04-03  12:00:00\t-5\n".toList, "2021-04-03  12:00:00\tTotal:  5\n".toList,
       "\n".toList]).total = if ttabLogMode = true then 0 else 10147 := by
  generalize hF : List.foldl sum_log_line = F
  have hcons : ∀ (s : SumLog) (l : List Char) (ls : List (List Char)),
      F s (l :: ls) = F (sum_log_line s l) ls := by
    intro s l ls; rw [← hF]; rfl
  have hnil : ∀ s : SumLog, F s [] = s := by
    intro s; rw [← hF]; rfl
  cases ttabLogMode
  all_goals
    iterate 9
      rw [hcons, sum_log_line_copy _ _ (by decide) (by decide) (by simp [separator])]
      simp [streq, scan_number, atof, strtod, cstr, NUL, charAt, isspace, isdigit, natOfDigits,
        digitVal, scan_exponent, scale10, separator]
    rw [hnil]
    try norm_num

/-- The first three turns of `sum_log` on the lines that follow the first
separator of a saved log: ttab log mode is entered exactly when the byte
`good[9]` that the first turn finds is `NUL`; nothing is added, and the
separator line ends up in the first 41 bytes of `good`. -/
theorem sum_log_header (good0 : List Char) (hg : good0.length = 80) :
    sum_log_line (sum_log_line (sum_log_line
        { ttabLogMode := false, good := good0, total := 0 } "TTAB LOG\n".toList)
        "Created 2021-04-03  12:00:00\n".toList) (separator ++ ['\n'])
      = { ttabLogMode := decide (charAt good0 9 = NUL),
          good := separator ++ ['\n'] ++ good0.drop 41, total := 0 } := by
  have hdrop : good0.drop 9 = charAt good0 9 :: good0.drop 10 := by
    have h9 : 9 < good0.length := by omega
    rw [List.drop_eq_getElem_cons h9]
    simp only [charAt, List.getD_eq_getElem?_getD, List.getElem?_eq_getElem h9,
      Option.getD_some]
  rw [sum_log_line_copy _ "TTAB LOG\n".toList (by decide) (by decide) (by simp [hg])]
  have hlen : ("TTAB LOG\n".toList ++ good0.drop "TTAB LOG\n".toList.length).length = 80 := by
    simp [hg]
  have h1 : streq ("TTAB LOG\n".toList ++ good0.drop "TTAB LOG\n".toList.length)
      "TTAB LOG\n".toList = decide (charAt good0 9 = NUL) := by
    have h9 : "TTAB LOG\n".toList.length = 9 := by decide
    rw [h9, hdrop]
    by_cases h : charAt good0 9 = NUL
    · rw [h]
      simp [streq, cstr, NUL]
    · have hb : (charAt good0 9 != Char.ofNat 0) = true := by simpa [NUL] using h
      simp [streq, cstr, NUL, hb]
      exact h
  have h2 : ∀ t : List Char, scan_number ("TTAB LOG\n".toList ++ t) = none := by
    intro t; simp [scan_number, charAt, NUL]
  have h3 : ∀ t : List Char, atof ("TTAB LOG\n".toList ++ t) = 0 := by
    intro t; simp [atof, strtod, cstr, NUL, isspace, isdigit, charAt]
  simp only [h1, h2, h3, Bool.false_or, Option.map_none', Option.getD_none, add_zero, ite_self]
  generalize hgood1 : "TTAB LOG\n".toList ++ good0.drop "TTAB LOG\n".toList.length = good1
  rw [hgood1] at hlen
  rw [sum_log_line_copy _ "Created 2021-04-03  12:00:00\n".toList (by decide) (by decide)
    (by simp [hlen])]
  have h4 : ∀ t : List Char,
      streq ("Created 2021-04-03  12:00:00\n".toList ++ t) "TTAB LOG\n".toList = false := by
    intro t; simp [streq, cstr, NUL]
  have h5 : ∀ t : List Char,
      scan_number ("Created 2021-04-03  12:00:00\n".toList ++ t) = none := by
    intro t; simp [scan_number, charAt, NUL]
  have h6 : ∀ t : List Char, atof ("Created 2021-04-03  12:00:00\n".toList ++ t) = 0 := by
    intro t; simp [atof, strtod, cstr, NUL, isspace, isdigit, charAt]
  simp only [h4, h5, h6, Bool.or_false, Option.map_none', Option.getD_none, add_zero, ite_self]
  rw [sum_log_line_copy _ (separator ++ ['\n']) (by decide) (by decide)
    (by simp [hlen, separator])]
  have h7 : ∀ t : List Char,
      streq (separator ++ ['\n'] ++ t) "TTAB LOG\n".toList = false := by
    intro t; simp [streq, cstr, NUL, separator]
  have h8 : ∀ t : List Char, scan_number (separator ++ ['\n'] ++ t) = none := by
    intro t; simp [scan_number, charAt, NUL, separator]
  have h9 : ∀ t : List Char, atof (separator ++ ['\n'] ++ t) = 0 := by
    intro t; simp [atof, strtod, cstr, NUL, isspace, isdigit, charAt, separator]
  simp only [h7, h8, h9, Bool.or_false, Option.map_none', Option.getD_none, add_zero, ite_self]
  have hd : List.drop (separator ++ ['\n']).length
      ("Created 2021-04-03  12:00:00\n".toList
        ++ List.drop "Created 2021-04-03  12:00:00\n".toList.length good1)
      = good0.drop 41 := by
    rw [← hgood1]
    simp [separator, List.drop_drop]
  rw [hd]

/-- The lines `fgets` delivers from the log saved after the entry `3-`. -/
theorem saved_lines_minus_entry :
    (run fresh [typed "3-\n"]).map (fun s => fgets_all 80 (save_file noon s) [])
      = some ((separator ++ ['\n']) ::
          ["TTAB LOG\n".toList, "Created 2021-04-03  12:00:00\n".toList,
           "----------------------------------------\n".toList, "\n".toList, "\n".toList,
           "2021-04-03  12:00:00\t3\n".toList, "2021-04-03  12:00:00\tTotal:  -3\n".toList,
           "\n".toList]) := by
  decide!

/-- The lines `fgets` delivers from the log saved after the entry `5`. -/
theorem saved_lines_plus_entry :
    (run fresh [typed "5\n"]).map (fun s => fgets_all 80 (save_file noon s) [])
      = some ((separator ++ ['\n']) ::
          ["TTAB LOG\n".toList, "Created 2021-04-03  12:00:00\n".toList,
           "----------------------------------------\n".toList, "\n".toList, "\n".toList,
           "2021-04-03  12:00:00\t+5\n".toList, "2021-04-03  12:00:00\tTotal:  5\n".toList,
           "\n".toList]) := by
  decide!

/-- The lines `fgets` delivers from the log saved after the entries `5` and
`c`. -/
theorem saved_lines_clear :
    (run fresh [typed "5\n", typed "c\n"]).map (fun s => fgets_all 80 (save_file noon s) [])
      = some ((separator ++ ['\n']) :: "TTAB LOG\n".toList
          :: "Created 2021-04-03  12:00:00\n".toList :: (separator ++ ['\n'])
          :: ["\n".toList, "\n".toList,
              "2021-04-03  12:00:00\t+5\n".toList, "2021-04-03  12:00:00\tTotal:  5\n".toList,
              "\n".toList, "2021-04-03  12:00:00\tREGISTER CLEARED\n".toList,
              "2021-04-03  12:00:00\t-5\n".toList, "2021-04-03  12:00:00\tTotal:  5\n".toList,
              "\n".toList]) := by
  decide!

/-- `sum_log` on the text saved for a ledger, from the lines of that text. -/
theorem map_sum_log (good0 : List Char) (o : Option State) :
    o.map (fun s => sum_log good0 (save_file noon s))
      = (o.map (fun s => fgets_all 80 (save_file noon s) [])).map (sum_log_lines good0) := by
  cases o <;> rfl

/-- `sum_log_stdin` on the text saved for a ledger, from the lines of that
text. -/
theorem map_sum_log_stdin (good0 : List Char) (o : Option State) :
    o.map (fun s => sum_log_stdin good0 (save_file noon s))
      = (o.map (fun s => fgets_all 80 (save_file noon s) [])).map
          (sum_log_stdin_lines good0 0) := by
  cases o <;> rfl

/-! ### Undo at the first node -/

/-- The first node of the chain survives `undo_prev`. -/
theorem undo_undo_prev (s : State) : undo (undo_prev s) = undo s := by
  obtain ⟨t, e, loc, m, a, ps⟩ := s
  cases ps <;> simp [undo, undo_prev]

/-- The first node of the chain survives any number of calls of `undo_prev`. -/
theorem undo_iterate_undo_prev (n : Nat) (s : State) :
    undo (Nat.iterate undo_prev n s) = undo s := by
  induction n generalizing s with
  | zero => rfl
  | succ k ih => rw [Function.iterate_succ_apply, ih, undo_undo_prev]

/-- With no predecessor, `undo_prev` changes nothing, however often it runs. -/
theorem iterate_undo_prev_of_nil (n : Nat) (s : State) (h : s.prevs = []) :
    Nat.iterate undo_prev n s = s := by
  have h1 : undo_prev s = s := by simp [undo_prev, h]
  exact Function.iterate_fixed h1 n

/-! ### The mode of a numeric entry -/

/-- The custom save leaves the mode alone. -/
theorem save_custom_mode (theTime : Tm) (s : State) (line : List Char) (r : Entered)
    (h : save_custom theTime s line = some r) : r.st.mode = s.mode := by
  unfold save_custom at h
  split at h
  · split at h
    · exact absurd h (by simp)
    · simp only [Option.some.injEq] at h
      rw [← h]
  · simp only [Option.some.injEq] at h
    rw [← h]

/-- The quicksave leaves the mode alone. -/
theorem quicksave_mode (theTime : Tm) (r : Entered) (line : List Char) :
    (quicksave theTime r line).st.mode = r.st.mode := by
  unfold quicksave
  split
  · split <;> rfl
  · rfl

/-- The mode "Find the number" leaves: `+` when `line[0]` or `line[strlen - 2]`
is `+`, else `-` when `line[strlen - 2]` is `-`, else the mode it found. -/
theorem find_number_mode (below : Nat → Char) (r : Entered) (line : List Char) :
    (find_number below r line).st.mode
      = if charAt line 0 = '+' ∨ lineAt below line ((line.length : Int) - 2) = '+' then '+'
        else if lineAt below line ((line.length : Int) - 2) = '-' then '-'
        else r.st.mode := by
  dsimp only [find_number]
  by_cases h1 : charAt line 0 = '+' ∨ lineAt below line ((line.length : Int) - 2) = '+'
  · rw [if_pos h1, if_pos h1]
  · by_cases h2 : lineAt below line ((line.length : Int) - 2) = '-'
    · rw [if_neg h1, if_neg h1, if_pos h2, if_pos h2]
    · rw [if_neg h1, if_neg h1, if_neg h2, if_neg h2]

/-! ### Integers written in decimal -/

/-- The ten digit characters are digits, with their values. -/
theorem digitChar_spec (k : Nat) (h : k < 10) :
    isdigit (Nat.digitChar k) = true ∧ digitVal (Nat.digitChar k) = k := by
  interval_cases k <;> decide

/-- Reading one more digit. -/
theorem natOfDigits_append_singleton (ds : List Char) (d : Char) :
    natOfDigits (ds ++ [d]) = 10 * natOfDigits ds + digitVal d := by
  simp [natOfDigits, List.foldl_append]

/-- What `Nat.toDigitsCore` puts in front of its accumulator are the decimal
digits of the number. -/
theorem toDigitsCore_spec :
    ∀ (fuel n : Nat) (ds : List Char), n < fuel →
      ∃ pre : List Char,
        Nat.toDigitsCore 10 fuel n ds = pre ++ ds ∧ pre ≠ []
          ∧ (∀ c ∈ pre, isdigit c = true) ∧ natOfDigits pre = n := by
  intro fuel
  induction fuel with
  | zero => intro n ds h; omega
  | succ f ih =>
    intro n ds h
    obtain ⟨hd, hv⟩ := digitChar_spec (n % 10) (Nat.mod_lt _ (by norm_num))
    by_cases h0 : n / 10 = 0
    · refine ⟨[Nat.digitChar (n % 10)], ?_, by simp, ?_, ?_⟩
      · simp [Nat.toDigitsCore, h0]
      · intro c hc
        simp only [List.mem_singleton] at hc
        rw [hc]; exact hd
      · have hlt : n < 10 := by
          by_contra hge
          have : 1 ≤ n / 10 := Nat.div_pos (by omega) (by norm_num)
          omega
        simp only [natOfDigits, List.foldl]
        rw [hv]; omega
    · have hlt : n / 10 < f := by
        have : n / 10 < n := Nat.div_lt_self (by
          by_contra hn; have : n = 0 := by omega
          simp [this] at h0) (by norm_num)
        omega
      obtain ⟨pre, hpre, hne, hall, hval⟩ := ih (n / 10) (Nat.digitChar (n % 10) :: ds) hlt
      refine ⟨pre ++ [Nat.digitChar (n % 10)], ?_, by simp, ?_, ?_⟩
      · simp [Nat.toDigitsCore, h0, hpre]
      · intro c hc
        rcases List.mem_append.mp hc with hc | hc
        · exact hall c hc
        · simp only [List.mem_singleton] at hc
          rw [hc]; exact hd
      · rw [natOfDigits_append_singleton, hval, hv]
        omega

/-- The decimal digits of a natural number are digits, at least one, and
`natOfDigits` reads the number back. -/
theorem natDigits_spec (n : Nat) :
    natDigits n ≠ [] ∧ (∀ c ∈ natDigits n, isdigit c = true)
      ∧ natOfDigits (natDigits n) = n := by
  obtain ⟨pre, hpre, hne, hall, hval⟩ := toDigitsCore_spec (n + 1) n [] (Nat.lt_succ_self n)
  have h : natDigits n = pre := by
    simp [natDigits, Nat.toDigits, hpre]
  rw [h]
  exact ⟨hne, hall, hval⟩

/-- A buffer without a `NUL` is its own string. -/
theorem cstr_of_no_nul (l : List Char) (h : ∀ c ∈ l, c ≠ NUL) : cstr l = l := by
  unfold cstr
  rw [List.takeWhile_eq_self_iff]
  intro c hc
  simpa using h c hc

/-- A digit is none of the bytes that are not digits. -/
theorem digit_ne (c x : Char) (h : isdigit c = true) (hx : isdigit x = false) : c ≠ x := by
  rintro rfl
  rw [h] at hx
  exact Bool.noConfusion hx

/-- A digit is not white space. -/
theorem digit_not_space (c : Char) (h : isdigit c = true) : isspace c = false := by
  have h1 : c ≠ ' ' := digit_ne c ' ' h (by decide)
  simp only [isdigit, Bool.and_eq_true, decide_eq_true_eq] at h
  simp only [isspace, Bool.or_eq_false_iff, beq_eq_false_iff_ne, ne_eq, Bool.and_eq_false_iff,
    decide_eq_false_iff_not]
  exact ⟨h1, Or.inr (by omega)⟩

/-- The bytes of an integer written in decimal: a `-` or digits, at least one. -/
theorem intDigits_spec (n : Int) :
    ∃ (sign ds : List Char), intDigits n = sign ++ ds
      ∧ (sign = [] ∧ 0 ≤ n ∨ sign = ['-'] ∧ n < 0)
      ∧ ds ≠ [] ∧ (∀ c ∈ ds, isdigit c = true) ∧ natOfDigits ds = n.natAbs := by
  obtain ⟨hne, hall, hval⟩ := natDigits_spec n.natAbs
  by_cases h : n < 0
  · exact ⟨['-'], natDigits n.natAbs, by simp [intDigits, h], Or.inr ⟨rfl, h⟩, hne, hall, hval⟩
  · exact ⟨[], natDigits n.natAbs, by simp [intDigits, h], Or.inl ⟨rfl, by omega⟩, hne, hall, hval⟩

/-- The digits in front of a byte that is not a digit are what `takeWhile` takes. -/
theorem takeWhile_digits (ds rest : List Char) (h : ∀ c ∈ ds, isdigit c = true)
    (hr : isdigit (charAt rest 0) = false) : (ds ++ rest).takeWhile isdigit = ds := by
  rw [List.takeWhile_append_of_pos h]
  cases rest with
  | nil => simp
  | cons r rs =>
    have : isdigit r = false := by simpa [charAt] using hr
    simp [List.takeWhile, this]

/-- The directive `%d` reads back an integer written in decimal, when the byte
after it is not a digit. -/
theorem scan_d_intDigits (n : Int) (rest : List Char) (hr : isdigit (charAt rest 0) = false) :
    scan_d (intDigits n ++ rest) = some n := by
  obtain ⟨sign, ds, hd, hs, hne, hall, hval⟩ := intDigits_spec n
  obtain ⟨d, ds1, rfl⟩ := List.exists_cons_of_ne_nil hne
  have htw := takeWhile_digits (d :: ds1) rest hall hr
  have hdd : isdigit d = true := hall d (List.mem_cons_self _ _)
  have hsp : isspace d = false := digit_not_space d hdd
  have hm : d ≠ '-' := digit_ne d '-' hdd (by decide)
  have hp : d ≠ '+' := digit_ne d '+' hdd (by decide)
  rw [hd]
  rcases hs with ⟨rfl, h0⟩ | ⟨rfl, h0⟩
  · have hs1 : ([] ++ d :: ds1 ++ rest).dropWhile isspace = (d :: ds1) ++ rest := by
      simp [List.dropWhile, hsp]
    unfold scan_d
    simp only [hs1]
    have hc : charAt (d :: ds1 ++ rest) 0 = d := by simp [charAt]
    have hm1 : (d == '-') = false := by simpa using hm
    have hp1 : (d == '+') = false := by simpa using hp
    simp only [hc, hm1, hp1, Bool.or_self, Bool.false_eq_true, if_false, htw,
      List.isEmpty_cons, hval]
    congr 1
    omega
  · have hs1 : (['-'] ++ d :: ds1 ++ rest).dropWhile isspace = '-' :: ((d :: ds1) ++ rest) := by
      simp [List.dropWhile, isspace]
    unfold scan_d
    simp only [hs1]
    have hc : charAt ('-' :: (d :: ds1 ++ rest)) 0 = '-' := by simp [charAt]
    simp only [hc, beq_self_eq_true, Bool.true_or, if_true, List.drop_succ_cons, List.drop_zero,
      htw]
    simp only [List.isEmpty_cons, Bool.false_eq_true, if_false, hval]
    congr 1
    omega

/-- The last three bytes of a line that ends in `..` and a newline compare equal
to that literal. -/
theorem streq_at_rear_dots (below : Nat → Char) (X : List Char) :
    streq_at below (X ++ ['.', '.', '\n']) (((X ++ ['.', '.', '\n']).length : Int) - 3)
      ['.', '.', '\n'] = true := by
  have h0 : ((X.length : Int) + 3 - 3 + 0).toNat = X.length + 0 := by omega
  have h1 : ((X.length : Int) + 3 - 3 + 1).toNat = X.length + 1 := by omega
  have h2 : ((X.length : Int) + 3 - 3 + 2).toNat = X.length + 2 := by omega
  have h3 : ((X.length : Int) + 3 - 3 + 3).toNat = X.length + 3 := by omega
  have n0 : ¬ ((X.length : Int) + 3 - 3 + 0 < 0) := by omega
  have n1 : ¬ ((X.length : Int) + 3 - 3 + 1 < 0) := by omega
  have n2 : ¬ ((X.length : Int) + 3 - 3 + 2 < 0) := by omega
  have n3 : ¬ ((X.length : Int) + 3 - 3 + 3 < 0) := by omega
  simp only [streq_at, lineAt, List.length_append, List.length_cons, List.length_nil,
    List.range, List.range.loop, List.all_cons, List.all_nil, Nat.cast_add, Nat.cast_ofNat,
    Nat.cast_zero, Nat.cast_one, zero_add, Nat.reduceAdd, n0, n1, n2, n3, h0, h1, h2, h3, if_false,
    charAt]
  have e : ∀ k, (X ++ ['.', '.', '\n']).getD (X.length + k) NUL = ['.', '.', '\n'].getD k NUL := by
    intro k
    rw [List.getD_append_right _ _ _ _ (by omega)]
    congr 1
    omega
  simp only [e]
  simp

/-- The line `..X` where `%d` reads the integer `n` from `X`. -/
theorem get_entered_front_dots (theTime : Tm) (below : Nat → Char) (s : State) (n : Int)
    (x : Char) (xs : List Char) (hX : ∀ c ∈ x :: xs, c ≠ NUL)
    (hsc : scan_d (x :: xs ++ ['\n']) = some n) :
    get_entered theTime below s (['.', '.'] ++ (x :: xs) ++ ['\n'])
      = Outcome.returned
          { st := { s with entered := s.history.number * (n : ℚ) }, saved := [], faults := [] } := by
  have hc : cstr (['.', '.'] ++ (x :: xs) ++ ['\n']) = ['.', '.'] ++ (x :: xs) ++ ['\n'] := by
    apply cstr_of_no_nul
    intro c hc
    rw [List.mem_append, List.mem_append] at hc
    rcases hc with (h | h) | h
    · have : c = '.' := by simpa using h
      subst this; decide
    · exact hX c h
    · have : c = '\n' := by simpa using h
      subst this; decide
  have hsc1 : scan_d (x :: (xs ++ ['\n'])) = some n := hsc
  unfold get_entered
  simp only [hc]
  simp [charAt, hsc1]

/-- The line `X..` where `%d` reads the integer `n` from it and the first byte
of `X` starts no other command. -/
theorem get_entered_rear_dots (theTime : Tm) (below : Nat → Char) (s : State) (n : Int)
    (x : Char) (xs : List Char) (hX : ∀ c ∈ x :: xs, c ≠ NUL)
    (hx : x ≠ '.' ∧ x ≠ '+' ∧ x ≠ '\n' ∧ x ≠ 'q' ∧ x ≠ 'Q' ∧ x ≠ 'c'
      ∧ x ≠ 'C' ∧ x ≠ 'l' ∧ x ≠ '*' ∧ x ≠ 'h' ∧ x ≠ 'u')
    (hsc : scan_d (x :: xs ++ ['.', '.', '\n']) = some n) :
    get_entered theTime below s ((x :: xs) ++ ['.', '.', '\n'])
      = Outcome.returned
          { st := { s with entered := s.history.number * (n : ℚ) }, saved := [], faults := [] } := by
  have hc : cstr ((x :: xs) ++ ['.', '.', '\n']) = (x :: xs) ++ ['.', '.', '\n'] := by
    apply cstr_of_no_nul
    intro c hc
    rw [List.mem_append] at hc
    rcases hc with h | h
    · exact hX c h
    · have : c = '.' ∨ c = '\n' := by simpa using h
      rcases this with h | h <;> subst h <;> decide
  have hsc1 : scan_d (x :: (xs ++ ['.', '.', '\n'])) = some n := hsc
  have hrear : streq_at below (x :: xs ++ ['.', '.', '\n'])
      (((x :: xs ++ ['.', '.', '\n']).length : Int) - 3) "..\n".toList = true :=
    streq_at_rear_dots below (x :: xs)
  obtain ⟨x1, x2, x3, x4, x5, x6, x7, x8, x9, x10, x11⟩ := hx
  unfold get_entered
  simp only [hc]
  rw [hrear]
  simp [charAt, hsc1, x1, x2, x3, x4, x5, x6, x7, x8, x9, x10, x11]

/-! ### Comment lines in `sum_log` -/

/-- The copy loop of `sum_log` on a line that starts with `#`: nothing is
copied and `good` stays as the turn before left it. -/
theorem exclude_comments_hash (line : List Char) (i : Nat) (good : List Char) :
    exclude_comments '#' line i good = good := by
  cases line <;> simp [exclude_comments]

/-- One turn of the loop of `sum_log` on a line that starts with `#`: `good`
keeps the line of the turn before, which is read once more. -/
theorem sum_log_line_hash (st : SumLog) (line : List Char)
    (h : charAt (cstr line) 0 = '#') :
    sum_log_line st line =
      { ttabLogMode := st.ttabLogMode || streq st.good "TTAB LOG\n".toList,
        good := st.good,
        total :=
          if (st.ttabLogMode || streq st.good "TTAB LOG\n".toList) = true
          then st.total + ((scan_number st.good).map atof).getD 0
          else st.total + atof st.good } := by
  obtain ⟨m0, g0, t0⟩ := st
  unfold sum_log_line
  dsimp only
  rw [h, exclude_comments_hash]
  generalize streq g0 "TTAB LOG\n".toList = b
  cases m0 <;> cases b <;> cases hs : scan_number g0 <;> simp

/-- The turn of `sum_log` on the line `TTAB LOG` as its first line: ttab log
mode is entered exactly when the byte `good[9]` it finds is `NUL`, and nothing
is added. -/
theorem sum_log_line_ttab (good0 : List Char) (hg : good0.length = 80) :
    sum_log_line { ttabLogMode := false, good := good0, total := 0 } "TTAB LOG\n".toList
      = { ttabLogMode := decide (charAt good0 9 = NUL),
          good := "TTAB LOG\n".toList ++ good0.drop 9, total := 0 } := by
  have hdrop : good0.drop 9 = charAt good0 9 :: good0.drop 10 := by
    have h9 : 9 < good0.length := by omega
    rw [List.drop_eq_getElem_cons h9]
    simp only [charAt, List.getD_eq_getElem?_getD, List.getElem?_eq_getElem h9,
      Option.getD_some]
  rw [sum_log_line_copy _ "TTAB LOG\n".toList (by decide) (by decide) (by simp [hg])]
  have h9 : "TTAB LOG\n".toList.length = 9 := by decide
  have h1 : streq ("TTAB LOG\n".toList ++ good0.drop 9) "TTAB LOG\n".toList
      = decide (charAt good0 9 = NUL) := by
    rw [hdrop]
    by_cases h : charAt good0 9 = NUL
    · rw [h]
      simp [streq, cstr, NUL]
    · have hb : (charAt good0 9 != Char.ofNat 0) = true := by simpa [NUL] using h
      simp [streq, cstr, NUL, hb]
      exact h
  have h2 : ∀ t : List Char, scan_number ("TTAB LOG\n".toList ++ t) = none := by
    intro t; simp [scan_number, charAt, NUL]
  have h3 : ∀ t : List Char, atof ("TTAB LOG\n".toList ++ t) = 0 := by
    intro t; simp [atof, strtod, cstr, NUL, isspace, isdigit, charAt]
  simp only [h9, h1, h2, h3, Bool.false_or, Option.map_none', Option.getD_none, add_zero,
    ite_self]

/-- Reading `good[9]` in an array given by its 80 bytes. -/
theorem charAt_ofFn_nine (good0 : Fin 80 → Char) : charAt (List.ofFn good0) 9 = good0 9 := by
  simp only [charAt, List.getD_eq_getElem?_getD, List.getElem?_ofFn]
  rfl

/-! ### The loop of `truncate_zeroes` -/

/-- The rendering `%lf` of every value is an optional `-`, at least one digit, a
point and six digits. -/
theorem fmt_lf_shape (v : ℚ) :
    ∃ sign I f : List Char, fmt_lf v = sign ++ I ++ '.' :: f
      ∧ (sign = [] ∨ sign = ['-'])
      ∧ (I ≠ [] ∧ ∀ c ∈ I, isdigit c = true)
      ∧ (f.length = 6 ∧ ∀ c ∈ f, isdigit c = true) := by
  refine ⟨if v < 0 then ['-'] else [],
    natDigits (roundHalfEven (v.num.natAbs * 10 ^ 6) v.den / 10 ^ 6),
    padDigits 6 (roundHalfEven (v.num.natAbs * 10 ^ 6) v.den % 10 ^ 6), rfl, ?_, ?_, ?_⟩
  · by_cases h : v < 0 <;> simp [h]
  · exact ⟨(natDigits_spec _).1, (natDigits_spec _).2.1⟩
  · have hm : roundHalfEven (v.num.natAbs * 10 ^ 6) v.den % 10 ^ 6 < 10 ^ 6 :=
      Nat.mod_lt _ (by norm_num)
    generalize roundHalfEven (v.num.natAbs * 10 ^ 6) v.den % 10 ^ 6 = m at hm ⊢
    have hl : (natDigits m).length ≤ 6 :=
      Nat.toDigitsCore_length 10 (by decide) (m + 1) m 6 hm (by decide)
    unfold padDigits
    constructor
    · rw [List.length_append, List.length_replicate]
      omega
    · intro c hc
      rw [List.mem_append] at hc
      rcases hc with h | h
      · rw [(List.mem_replicate.mp h).2]; decide
      · exact (natDigits_spec m).2.1 c h

/-- Renderings that fit the array: `100.000000` prints `100`, `6.500000` prints
`6.5`, `0.000000` prints `0` and `-1.250000` prints `-1.25`. -/
theorem print_truncated_examples :
    print_truncated (snprintf NUM_STRING_LEN "100.000000".toList) = some "100\n".toList
    ∧ print_truncated (snprintf NUM_STRING_LEN "6.500000".toList) = some "6.5\n".toList
    ∧ print_truncated (snprintf NUM_STRING_LEN "0.000000".toList) = some "0\n".toList
    ∧ print_truncated (snprintf NUM_STRING_LEN "-1.250000".toList) = some "-1.25\n".toList := by
  decide

/-! ### Streams of lines that hold one number each -/

/-- What `one_token` says of a line. -/
theorem one_token_spec (X : List Char) (h : one_token X = true) :
    (∀ c ∈ X, c ≠ NUL ∧ c ≠ '\n' ∧ c ≠ ' ') ∧ X.length + 2 ≤ 80 ∧ X ≠ separator := by
  simp only [one_token, Bool.and_eq_true, List.all_eq_true, bne_iff_ne, ne_eq,
    decide_eq_true_eq, MAX_STRING_LEN] at h
  exact ⟨fun c hc => ⟨(h.1.1 c hc).1.1, (h.1.1 c hc).1.2, (h.1.1 c hc).2⟩, h.1.2, h.2⟩

/-- One call of `fgets` on a line that fits the buffer. -/
theorem fgets_all_line (X rest : List Char) (hX : ∀ c ∈ X, c ≠ '\n') :
    ∀ cur : List Char, cur.length + X.length + 2 ≤ 80 →
      fgets_all 80 (X ++ '\n' :: rest) cur
        = (cur.reverse ++ X ++ ['\n']) :: fgets_all 80 rest [] := by
  induction X with
  | nil =>
    intro cur _
    simp [fgets_all]
  | cons c X ih =>
    intro cur hl
    have hc : c ≠ '\n' := hX c (List.mem_cons_self _ _)
    have hn : ¬ (80 ≤ cur.length + 2) := by
      simp only [List.length_cons] at hl
      omega
    have := ih (fun d hd => hX d (List.mem_cons_of_mem _ hd)) (c :: cur) (by
      simp only [List.length_cons] at hl ⊢
      omega)
    have hcb : (c == '\n') = false := by simpa using hc
    rw [List.cons_append, fgets_all]
    simp only [hcb, ge_iff_le, hn, decide_False, Bool.or_self, Bool.false_eq_true, if_false]
    rw [this]
    simp

/-- The calls of `fgets` on a stream of lines that fit the buffer deliver the
lines. -/
theorem fgets_all_stream (lines : List (List Char))
    (h : ∀ X ∈ lines, (∀ c ∈ X, c ≠ '\n') ∧ X.length + 2 ≤ 80) :
    fgets_all 80 (stream_of_lines lines) [] = lines.map (fun X => X ++ ['\n']) := by
  induction lines with
  | nil => rfl
  | cons X rest ih =>
    obtain ⟨h1, h2⟩ := h X (List.mem_cons_self _ _)
    rw [stream_of_lines, fgets_all_line X _ h1 [] (by simpa using h2),
      ih (fun Y hY => h Y (List.mem_cons_of_mem _ hY))]
    simp

/-- A string without a space is one piece for `strtok`. -/
theorem strtok_all_one (l : List Char) (hl : ∀ c ∈ l, c ≠ ' ') :
    ∀ cur : List Char, strtok_all l cur
      = if (cur.reverse ++ l).isEmpty then [] else [cur.reverse ++ l] := by
  induction l with
  | nil =>
    intro cur
    simp [strtok_all]
  | cons c l ih =>
    intro cur
    have hc : c ≠ ' ' := hl c (List.mem_cons_self _ _)
    simp only [strtok_all, beq_iff_eq, hc, if_false]
    rw [ih (fun d hd => hl d (List.mem_cons_of_mem _ hd))]
    simp

/-- The loop of `sum_log_stdin` on lines of one token each adds what `atof`
reads from every line. -/
theorem sum_log_stdin_lines_tokens (good0 : List Char) (lines : List (List Char))
    (h : ∀ X ∈ lines, one_token X = true) :
    ∀ total : ℚ, sum_log_stdin_lines good0 total (lines.map (fun X => X ++ ['\n']))
      = total + (lines.map (fun X => atof (X ++ ['\n']))).sum := by
  induction lines with
  | nil => intro total; simp [sum_log_stdin_lines]
  | cons X rest ih =>
    intro total
    obtain ⟨hX, hlen, hsep⟩ := one_token_spec X (h X (List.mem_cons_self _ _))
    have hc : cstr (X ++ ['\n']) = X ++ ['\n'] := by
      apply cstr_of_no_nul
      intro c hc
      rw [List.mem_append, List.mem_singleton] at hc
      rcases hc with h | h
      · exact (hX c h).1
      · rw [h]; decide
    have hs : streq (X ++ ['\n']) (separator ++ ['\n']) = false := by
      have hcs : cstr (separator ++ ['\n']) = separator ++ ['\n'] := by decide
      unfold streq
      rw [hc, hcs]
      simpa using hsep
    have ht : strtok_all (X ++ ['\n']) [] = [X ++ ['\n']] := by
      rw [strtok_all_one _ (by
        intro c hc
        rw [List.mem_append, List.mem_singleton] at hc
        rcases hc with h | h
        · exact (hX c h).2.2
        · rw [h]; decide)]
      simp
    rw [List.map_cons, sum_log_stdin_lines, hs, hc, ht,
      ih (fun Y hY => h Y (List.mem_cons_of_mem _ hY))]
    simp [add_assoc]

/-- The digits taken from a string stop at a newline at the latest. -/
theorem takeWhile_digit_newline (Y t : List Char) :
    (Y ++ '\n' :: t).takeWhile isdigit = Y.takeWhile isdigit := by
  induction Y with
  | nil => simp [List.takeWhile, isdigit]
  | cons y Y ih =>
    by_cases h : isdigit y = true
    · simp [List.takeWhile, h, ih]
    · simp [List.takeWhile, h]

/-- Dropping digits stops at a newline at the latest. -/
theorem dropWhile_digit_newline (Y t : List Char) :
    (Y ++ '\n' :: t).dropWhile isdigit = Y.dropWhile isdigit ++ '\n' :: t := by
  induction Y with
  | nil => simp [List.dropWhile, isdigit]
  | cons y Y ih =>
    by_cases h : isdigit y = true
    · simp [List.dropWhile, h, ih]
    · simp [List.dropWhile, h]

/-- The exponent read in front of a newline does not depend on what follows
the newline. -/
theorem scan_exponent_newline (W t : List Char) :
    scan_exponent (W ++ '\n' :: t) = scan_exponent (W ++ ['\n']) := by
  cases W with
  | nil => simp [scan_exponent]
  | cons e r =>
    by_cases he : (e == 'e' || e == 'E') = true
    · cases r with
      | nil => simp [scan_exponent, he, List.takeWhile, isdigit]
      | cons c r1 =>
        by_cases hm : c = '-'
        · subst hm
          simp [scan_exponent, he, takeWhile_digit_newline]
        · by_cases hp : c = '+'
          · subst hp
            simp [scan_exponent, he, takeWhile_digit_newline]
          · have e1 : ∀ u : List Char, scan_exponent (e :: c :: u)
                = (natOfDigits ((c :: u).takeWhile isdigit) : Int) := by
              intro u
              unfold scan_exponent
              simp only [he, if_true]
              split
              · rename_i h; simp at h; exact absurd h.1 hm
              · rename_i h; simp at h; exact absurd h.1 hp
              · rfl
            have a1 := e1 (r1 ++ '\n' :: t)
            have a2 := e1 (r1 ++ ['\n'])
            have b1 := takeWhile_digit_newline (c :: r1) t
            have b2 := takeWhile_digit_newline (c :: r1) []
            simp only [List.cons_append] at b1 b2 ⊢
            rw [a1, a2, b1, b2]
    · have hf : (e == 'e' || e == 'E') = false := by simpa using he
      simp [scan_exponent, hf]

/-- The digits after the point, in front of a newline, do not depend on what
follows the newline. -/
theorem fraction_newline (Y t : List Char) :
    (if charAt ((Y ++ '\n' :: t).dropWhile isdigit) 0 == '.'
      then (((Y ++ '\n' :: t).dropWhile isdigit).drop 1).takeWhile isdigit else [])
    = (if charAt ((Y ++ ['\n']).dropWhile isdigit) 0 == '.'
      then (((Y ++ ['\n']).dropWhile isdigit).drop 1).takeWhile isdigit else []) := by
  rw [dropWhile_digit_newline, dropWhile_digit_newline]
  generalize Y.dropWhile isdigit = Z
  cases Z with
  | nil => simp [charAt]
  | cons z Z1 =>
    have h1 := takeWhile_digit_newline Z1 t
    have h2 := takeWhile_digit_newline Z1 []
    simp only [List.cons_append, charAt, List.getD_cons_zero, List.drop_succ_cons, List.drop_zero,
      h1, h2]

/-- The exponent read after the digits, in front of a newline, does not depend
on what follows the newline. -/
theorem exponent_newline (Y t : List Char) :
    scan_exponent (if charAt ((Y ++ '\n' :: t).dropWhile isdigit) 0 == '.'
      then (((Y ++ '\n' :: t).dropWhile isdigit).drop 1).dropWhile isdigit
      else (Y ++ '\n' :: t).dropWhile isdigit)
    = scan_exponent (if charAt ((Y ++ ['\n']).dropWhile isdigit) 0 == '.'
      then (((Y ++ ['\n']).dropWhile isdigit).drop 1).dropWhile isdigit
      else (Y ++ ['\n']).dropWhile isdigit) := by
  rw [dropWhile_digit_newline, dropWhile_digit_newline]
  generalize Y.dropWhile isdigit = Z
  cases Z with
  | nil => simp [charAt, scan_exponent]
  | cons z Z1 =>
    have h1 := dropWhile_digit_newline Z1 t
    have h2 := dropWhile_digit_newline Z1 []
    have h3 := scan_exponent_newline (Z1.dropWhile isdigit) t
    have h4 := scan_exponent_newline (z :: Z1) t
    simp only [List.cons_append, charAt, List.getD_cons_zero, List.drop_succ_cons, List.drop_zero,
      h1, h2] at h4 ⊢
    by_cases hz : (z == '.') = true
    · simp only [hz, if_true]
      exact h3
    · simp only [hz, if_false]
      exact h4

/-- What `strtod` reads from a string that does not start with white space and
has a newline in it does not depend on what follows the newline. -/
theorem strtod_newline_tail (x : Char) (X t : List Char) (hx : isspace x = false) :
    strtod (x :: X ++ '\n' :: t) = strtod (x :: X ++ ['\n']) := by
  have s1 : ∀ u : List Char,
      (x :: X ++ '\n' :: u).dropWhile isspace = x :: (X ++ '\n' :: u) := by
    intro u
    simp [List.dropWhile, hx]
  have c0 : ∀ u : List Char, charAt (x :: (X ++ '\n' :: u)) 0 = x := fun _ => rfl
  unfold strtod
  simp only [s1, c0]
  by_cases hsign : (x == '-' || x == '+') = true
  · simp only [hsign, if_true, List.drop_succ_cons, List.drop_zero]
    rw [takeWhile_digit_newline X t, takeWhile_digit_newline X [], fraction_newline X t,
      exponent_newline X t]
  · have hs : (x == '-' || x == '+') = false := by simpa using hsign
    simp only [hs, Bool.false_eq_true, if_false]
    have e : ∀ u : List Char, x :: (X ++ '\n' :: u) = (x :: X) ++ '\n' :: u := fun _ => rfl
    rw [e t, e []]
    rw [takeWhile_digit_newline (x :: X) t, takeWhile_digit_newline (x :: X) [],
      fraction_newline (x :: X) t, exponent_newline (x :: X) t]

/-- What `plain_number` says of a line. -/
theorem plain_number_spec (X : List Char) (h : plain_number X = true) :
    one_token X = true
      ∧ ∃ (x : Char) (X1 : List Char), X = x :: X1 ∧ isspace x = false ∧ x ≠ '#' := by
  simp only [plain_number, Bool.and_eq_true, Bool.not_eq_true', bne_iff_ne, ne_eq] at h
  obtain ⟨⟨⟨h1, h2⟩, h3⟩, h4⟩ := h
  refine ⟨h1, ?_⟩
  cases X with
  | nil => simp at h2
  | cons x X1 => exact ⟨x, X1, rfl, by simpa [charAt] using h3, by simpa [charAt] using h4⟩

/-- The string of a buffer that starts with bytes other than `NUL`. -/
theorem cstr_append_of_no_nul (P r : List Char) (hP : ∀ c ∈ P, c ≠ NUL) :
    cstr (P ++ r) = P ++ cstr r := by
  unfold cstr
  rw [List.takeWhile_append_of_pos (fun c hc => by simpa using hP c hc)]

/-- One turn of the loop of `sum_log` outside ttab log mode, on a line that
holds one number: the mode stays off, `good` keeps its length and the total
grows by what `atof` reads from the line. -/
theorem sum_log_line_number (st : SumLog) (X : List Char) (h : plain_number X = true)
    (hm : st.ttabLogMode = false) (hg : st.good.length = 80) :
    (sum_log_line st (X ++ ['\n'])).ttabLogMode = false
      ∧ (sum_log_line st (X ++ ['\n'])).good.length = 80
      ∧ (sum_log_line st (X ++ ['\n'])).total = st.total + atof (X ++ ['\n']) := by
  obtain ⟨h1, x, X1, rfl, hsp, hhash⟩ := plain_number_spec X h
  obtain ⟨hX, hlen, hsep⟩ := one_token_spec _ h1
  have hno : ∀ c ∈ x :: X1 ++ ['\n'], c ≠ NUL := by
    intro c hc
    rw [List.mem_append, List.mem_singleton] at hc
    rcases hc with h | h
    · exact (hX c h).1
    · rw [h]; decide
  have hc : cstr (x :: X1 ++ ['\n']) = x :: X1 ++ ['\n'] := cstr_of_no_nul _ hno
  have h0 : (charAt (x :: X1 ++ ['\n']) 0 == '#') = false := by
    simpa [charAt] using hhash
  have hl : (x :: X1 ++ ['\n']).length ≤ st.good.length := by
    rw [hg]
    simp only [List.length_append, List.length_cons, List.length_nil] at hlen ⊢
    omega
  rw [sum_log_line_copy st _ hc h0 hl]
  have htl : (st.good.drop (x :: X1 ++ ['\n']).length).length + (x :: X1 ++ ['\n']).length = 80 := by
    rw [List.length_drop]
    omega
  generalize st.good.drop (x :: X1 ++ ['\n']).length = tail at htl ⊢
  have hcs : cstr (x :: X1 ++ ['\n'] ++ tail) = x :: X1 ++ '\n' :: cstr tail := by
    rw [cstr_append_of_no_nul _ _ hno]
    simp
  have hstreq : streq (x :: X1 ++ ['\n'] ++ tail) "TTAB LOG\n".toList = false := by
    unfold streq
    rw [hcs]
    have hr : cstr "TTAB LOG\n".toList = "TTAB LOG".toList ++ '\n' :: [] := by decide
    rw [hr]
    simp only [beq_eq_false_iff_ne, ne_eq]
    intro heq
    have hp : ∀ c ∈ x :: X1, (fun d : Char => d != '\n') c = true := by
      intro c hc
      simpa using (hX c hc).2.1
    have hq : ∀ c ∈ "TTAB LOG".toList, (fun d : Char => d != '\n') c = true := by decide
    have t1 : (x :: X1 ++ '\n' :: cstr tail).takeWhile (fun d : Char => d != '\n') = x :: X1 := by
      rw [List.takeWhile_append_of_pos hp]
      simp [List.takeWhile]
    have t2 : ("TTAB LOG".toList ++ '\n' :: []).takeWhile (fun d : Char => d != '\n')
        = "TTAB LOG".toList := by
      decide
    rw [heq, t2] at t1
    have : ' ' ∈ x :: X1 := by rw [← t1]; decide
    exact (hX ' ' this).2.2 rfl
  have hatof : atof (x :: X1 ++ ['\n'] ++ tail) = atof (x :: X1 ++ ['\n']) := by
    unfold atof
    rw [hcs, hc, strtod_newline_tail x X1 _ hsp]
  dsimp only
  rw [hm, hstreq, hatof]
  refine ⟨rfl, ?_, ?_⟩
  · rw [List.length_append]
    omega
  · simp

/-- The loop of `sum_log` outside ttab log mode, on lines that hold one number
each, adds what `atof` reads from every line. -/
theorem sum_log_lines_numbers (lines : List (List Char))
    (h : ∀ X ∈ lines, plain_number X = true) :
    ∀ st : SumLog, st.ttabLogMode = false → st.good.length = 80 →
      (List.foldl sum_log_line st (lines.map (fun X => X ++ ['\n']))).total
        = st.total + (lines.map (fun X => atof (X ++ ['\n']))).sum := by
  induction lines with
  | nil => intro st _ _; simp
  | cons X rest ih =>
    intro st hm hg
    obtain ⟨a, b, c⟩ := sum_log_line_number st X (h X (List.mem_cons_self _ _)) hm hg
    rw [List.map_cons, List.foldl_cons, ih (fun Y hY => h Y (List.mem_cons_of_mem _ hY)) _ a b, c]
    simp [add_assoc]

/-- The lines of a stream of tokens fit the buffer of `fgets`. -/
theorem fgets_all_tokens (lines : List (List Char)) (h : ∀ X ∈ lines, one_token X = true) :
    fgets_all 80 (stream_of_lines lines) [] = lines.map (fun X => X ++ ['\n']) :=
  fgets_all_stream lines (fun X hX =>
    ⟨fun c hc => ((one_token_spec X (h X hX)).1 c hc).2.1, (one_token_spec X (h X hX)).2.1⟩)

/-- Whatever the 80 bytes of `good` hold, on the line `1 2` the piped summation
adds both pieces and yields 3, the summation of a file reads one number and
yields 1; on the line `5 # 7` the piped summation also adds the 7 after the `#`
and yields 12, the summation of a file yields 5. -/
theorem two_numbers_on_a_line :
    ∀ good0 : Fin 80 → Char,
      sum_log_stdin (List.ofFn good0) "1 2\n".toList = 3
        ∧ sum_log (List.ofFn good0) "1 2\n".toList = 1
        ∧ sum_log_stdin (List.ofFn good0) "5 # 7\n".toList = 12
        ∧ sum_log (List.ofFn good0) "5 # 7\n".toList = 5 := by
  intro good0
  have hg : (List.ofFn good0).length = 80 := List.length_ofFn _
  generalize List.ofFn good0 = g at hg
  have e1 : fgets_all 80 "1 2\n".toList [] = ["1 2\n".toList] := by decide
  have e2 : fgets_all 80 "5 # 7\n".toList [] = ["5 # 7\n".toList] := by decide
  have s1 : streq "1 2\n".toList (separator ++ ['\n']) = false := by decide
  have s2 : streq "5 # 7\n".toList (separator ++ ['\n']) = false := by decide
  have t1 : strtok_all (cstr "1 2\n".toList) [] = ["1".toList, "2\n".toList] := by decide
  have t2 : strtok_all (cstr "5 # 7\n".toList) [] = ["5".toList, "#".toList, "7\n".toList] := by
    decide
  have a1 : atof "1".toList = 1 := by decide!
  have a2 : atof "2\n".toList = 2 := by decide!
  have a5 : atof "5".toList = 5 := by decide!
  have ah : atof "#".toList = 0 := by decide!
  have a7 : atof "7\n".toList = 7 := by decide!
  refine ⟨?_, ?_, ?_, ?_⟩
  · rw [sum_log_stdin, e1, sum_log_stdin_lines, s1, t1]
    simp only [Bool.false_eq_true, if_false, List.map_cons, List.map_nil, a1, a2,
      sum_log_stdin_lines]
    norm_num
  · rw [sum_log, e1, sum_log_lines, List.foldl_cons, List.foldl_nil,
      sum_log_line_copy _ _ (by decide) (by decide) (by simp [hg])]
    simp [streq, scan_number, atof, strtod, cstr, NUL, charAt, isspace, isdigit, natOfDigits,
      digitVal, scan_exponent, scale10]
  · rw [sum_log_stdin, e2, sum_log_stdin_lines, s2, t2]
    simp only [Bool.false_eq_true, if_false, List.map_cons, List.map_nil, a5, ah, a7,
      sum_log_stdin_lines]
    norm_num
  · rw [sum_log, e2, sum_log_lines, List.foldl_cons, List.foldl_nil,
      sum_log_line_copy _ _ (by decide) (by decide) (by simp [hg])]
    simp [streq, scan_number, atof, strtod, cstr, NUL, charAt, isspace, isdigit, natOfDigits,
      digitVal, scan_exponent, scale10]

/-! ### The codes of the recorded nodes -/

/-- The property `ledger_ok` looks at the history only. -/
theorem ledger_ok_congr (junk0 junk1 : action) (s t : State) (hh : t.history = s.history)
    (hp : t.prevs = s.prevs) (h : ledger_ok junk0 junk1 s) : ledger_ok junk0 junk1 t := by
  unfold ledger_ok at h ⊢
  rw [hh, hp]
  exact h

/-- A node that is `recorded_ok` may be added. -/
theorem ledger_ok_add_to_undo (junk0 junk1 : action) (theTime : Tm) (s : State) (cc : Char)
    (h : ledger_ok junk0 junk1 s)
    (hc : (cc = 'a' ∧ 0 < s.entered) ∨ cc = 's' ∨ cc = 'R') :
    ledger_ok junk0 junk1 (add_to_undo theTime s cc) := by
  obtain ⟨appended, hd, ha⟩ := h
  refine ⟨(add_to_undo theTime s cc).history :: appended, ?_, ?_⟩
  · rcases hd with hd | hd
    · left
      simp only [add_to_undo, List.cons_append, hd]
    · right
      simp only [add_to_undo, List.cons_append, hd]
  · intro a hmem
    rcases List.mem_cons.mp hmem with h1 | h1
    · rw [h1]
      rcases hc with ⟨h2, h3⟩ | h2 | h2
      · simp [recorded_ok, add_to_undo, h2, h3]
      · simp [recorded_ok, add_to_undo, h2]
      · simp [recorded_ok, add_to_undo, h2]
    · exact ha a h1

/-- The undo keeps the property. -/
theorem ledger_ok_undo_prev (junk0 junk1 : action) (s : State)
    (h : ledger_ok junk0 junk1 s) : ledger_ok junk0 junk1 (undo_prev s) := by
  obtain ⟨t, e, loc, m, hist, ps⟩ := s
  cases ps with
  | nil => simpa [undo_prev] using h
  | cons p ps =>
    obtain ⟨appended, hd, ha⟩ := h
    simp only [undo_prev]
    cases appended with
    | nil =>
      rcases hd with hd | hd
      · simp only [List.nil_append, List.cons.injEq] at hd
        exact ⟨[], Or.inr (by simp [hd.2]), by simp⟩
      · simp at hd
    | cons a app =>
      refine ⟨app, ?_, fun b hb => ha b (List.mem_cons_of_mem _ hb)⟩
      rcases hd with hd | hd
      · left
        simp only [List.cons_append, List.cons.injEq] at hd
        exact hd.2
      · right
        simp only [List.cons_append, List.cons.injEq] at hd
        exact hd.2

/-- The clearing of the register keeps the property. -/
theorem ledger_ok_clear_register (junk0 junk1 : action) (theTime : Tm) (s : State)
    (h : ledger_ok junk0 junk1 s) : ledger_ok junk0 junk1 (clear_register theTime s) := by
  have h1 : ledger_ok junk0 junk1 { s with entered := s.total * -1 } :=
    ledger_ok_congr junk0 junk1 s _ rfl rfl h
  have h2 := ledger_ok_add_to_undo junk0 junk1 theTime _ 'R' h1 (Or.inr (Or.inr rfl))
  exact ledger_ok_congr junk0 junk1 _ _ rfl rfl h2

/-- The commit of the pending value keeps the property. -/
theorem ledger_ok_do_math (junk0 junk1 : action) (theTime : Tm) (s : State)
    (h : ledger_ok junk0 junk1 s) : ledger_ok junk0 junk1 (do_math theTime s) := by
  unfold do_math
  split
  · exact ledger_ok_add_to_undo junk0 junk1 theTime _ 's'
      (ledger_ok_congr junk0 junk1 s _ rfl rfl h) (Or.inr (Or.inl rfl))
  · split
    · exact ledger_ok_add_to_undo junk0 junk1 theTime _ 's'
        (ledger_ok_congr junk0 junk1 s _ rfl rfl h) (Or.inr (Or.inl rfl))
    · split
      · rename_i hpos
        exact ledger_ok_add_to_undo junk0 junk1 theTime _ 'a'
          (ledger_ok_congr junk0 junk1 s _ rfl rfl h) (Or.inl ⟨rfl, hpos⟩)
      · exact ledger_ok_congr junk0 junk1 s _ rfl rfl h

/-- One turn of the main loop keeps the property. -/
theorem ledger_ok_main_step (junk0 junk1 : action) (s : State) (i : Input) (r : Entered)
    (hs : ledger_ok junk0 junk1 s) (h : main_step s i = Outcome.returned r) :
    ledger_ok junk0 junk1 r.st := by
  unfold main_step at h
  split at h
  · rename_i r0 hr0
    simp only [Outcome.returned.injEq] at h
    rw [← h]
    apply ledger_ok_do_math
    have hs1 : ledger_ok junk0 junk1 { s with mode := '+' } :=
      ledger_ok_congr junk0 junk1 s _ rfl rfl hs
    rcases get_entered_ledger _ _ _ _ _ hr0 with ⟨_, a2, a3⟩ | ⟨_, a2, a3⟩ | ⟨_, a2, a3⟩
    · exact ledger_ok_congr junk0 junk1 _ _ a2 a3 hs1
    · exact ledger_ok_congr junk0 junk1 _ _ a2 a3
        (ledger_ok_clear_register junk0 junk1 _ _ hs1)
    · exact ledger_ok_congr junk0 junk1 _ _ a2 a3 (ledger_ok_undo_prev junk0 junk1 _ hs1)
  · exact absurd h (by simp)
  · exact absurd h (by simp)

/-- A run of the main loop keeps the property. -/
theorem ledger_ok_run (junk0 junk1 : action) (inputs : List Input) :
    ∀ (s t : State), ledger_ok junk0 junk1 s → run s inputs = some t →
      ledger_ok junk0 junk1 t := by
  induction inputs with
  | nil =>
    intro s t hs h
    simp only [run, Option.some.injEq] at h
    rw [← h]
    exact hs
  | cons i rest ih =>
    intro s t hs h
    unfold run at h
    cases hstep : main_step s i with
    | exited => rw [hstep] at h; exact absurd h (by simp)
    | crashed => rw [hstep] at h; exact absurd h (by simp)
    | returned r =>
      rw [hstep] at h
      exact ih r.st t (ledger_ok_main_step junk0 junk1 s i r hs hstep) h

/-! ### The separator line on piped input -/

/-- On finite values `clear_register_ext` and `undo_prev_ext` do what
`clear_register` and `undo_prev` do on the rationals: the number recorded is
`-total`, the total becomes 0 and the undo brings the old total back. -/
theorem clear_register_ext_finite (t : ℚ) (e : xdouble) (a : xaction) (ps : List xaction) :
    (clear_register_ext { total := xdouble.finite t, entered := e, history := a, prevs := ps }).total
        = xdouble.finite 0
      ∧ (clear_register_ext
          { total := xdouble.finite t, entered := e, history := a, prevs := ps }).history.number
        = xdouble.finite (-t)
      ∧ (undo_prev_ext (clear_register_ext
          { total := xdouble.finite t, entered := e, history := a, prevs := ps })).total
        = xdouble.finite t := by
  simp [clear_register_ext, undo_prev_ext, xdouble.sub, xdouble.negate]

/-! ### The claims -/

/-- C1 (evaluation at the failing input): after the single entry `3-` the
ledger holds the total -3, and `sum_log` on the text `save_file` writes for it
yields 4063, whatever the 80 bytes of the array `good` were at the start; the
same happens for the single entry `5` (total 5, parsed as 4063). -/
theorem C1_round_trip_eval :
    (run fresh [typed "3-\n"]).map State.total = some (-3)
      ∧ (∀ good0 : Fin 80 → Char,
          (run fresh [typed "3-\n"]).map (fun s => sum_log (List.ofFn good0) (save_file noon s))
            = some 4063)
      ∧ (run fresh [typed "5\n"]).map State.total = some 5
      ∧ (∀ good0 : Fin 80 → Char,
          (run fresh [typed "5\n"]).map (fun s => sum_log (List.ofFn good0) (save_file noon s))
            = some 4063) := by
  refine ⟨by decide!, fun good0 => ?_, by decide!, fun good0 => ?_⟩
  · rw [map_sum_log, saved_lines_minus_entry]
    simp only [Option.map_some', sum_log_lines]
    rw [List.foldl_cons, sum_log_line_separator _ (List.length_ofFn _), sum_log_minus_entry]
  · rw [map_sum_log, saved_lines_plus_entry]
    simp only [Option.map_some', sum_log_lines]
    rw [List.foldl_cons, sum_log_line_separator _ (List.length_ofFn _), sum_log_plus_entry]

/-- C2 (evaluation at the failing input): from the fresh ledger the entry `3-`
gives the total -3 and the undo after it gives -6, not the 0 from before the
entry. -/
theorem C2_undo_after_trailing_minus_eval :
    (run fresh [typed "3-\n"]).map State.total = some (-3)
      ∧ (run fresh [typed "3-\n", typed "u\n"]).map State.total = some (-6)
      ∧ (undo_prev (do_math noon { fresh with mode := '-', entered := 3 })).total = -6 := by
  decide!

/-- C3 (evaluation at the failing input): after the entry `3-` the total is -3
and the `number` fields of the history sum to 3. -/
theorem C3_total_vs_sum_eval :
    (run fresh [typed "3-\n"]).map (fun s => (s.total, sum_numbers s)) = some (-3, 3) := by
  decide!

/-- C4 (evaluation at the failing input): after `5` and `c` the last node has
code `R` and runningTotal 5, while the total is 0. -/
theorem C4_clear_runningTotal_eval :
    (run fresh [typed "5\n", typed "c\n"]).map
        (fun s => (s.history.commentCode, s.history.runningTotal, s.total))
      = some ('R', 5, 0) := by
  decide!

/-- C5 (evaluation at the failing input): the log saved after `5` and `c` ends
with a `Total:` line showing 5, and `sum_log_stdin` on that log yields 0 when
the byte `good[9]` of `sum_log` starts as `NUL` and 10147 otherwise, whatever
the other bytes of the array are; it never yields 5. -/
theorem C5_piped_log_eval :
    (run fresh [typed "5\n", typed "c\n"]).map
        (fun s => "2021-04-03  12:00:00\tTotal:  5\n\n".toList.isSuffixOf (save_file noon s))
      = some true
      ∧ ∀ good0 : Fin 80 → Char,
          (run fresh [typed "5\n", typed "c\n"]).map
              (fun s => sum_log_stdin (List.ofFn good0) (save_file noon s))
            = some (if good0 9 = NUL then 0 else 10147) := by
  refine ⟨by decide!, fun good0 => ?_⟩
  rw [map_sum_log_stdin, saved_lines_clear]
  have hsep : streq (separator ++ ['\n']) (separator ++ ['\n']) = true := by decide
  simp only [Option.map_some', sum_log_stdin_lines, hsep, if_true, sum_log_lines]
  rw [List.foldl_cons, List.foldl_cons, List.foldl_cons,
    sum_log_header _ (List.length_ofFn _), sum_log_clear_entries]
  have h9 : charAt (List.ofFn good0) 9 = good0 9 := by
    simp only [charAt, List.getD_eq_getElem?_getD, List.getElem?_ofFn]
    rfl
  rw [h9]
  simp only [decide_eq_true_eq]

/-- C6: when `history` has no predecessor `undo_prev` returns the state it was
given (total and history included), and so does any number of calls; from
every state, any number of calls of `undo_prev` leaves the first node of the
chain, the one `undo` points to, in place; and a line starting with `u` does to
the total and the history what `undo_prev` does. -/
theorem C6_undo_at_boundary (s : State) (n : Nat) (i : Input) :
    (s.prevs = [] → undo_prev s = s ∧ Nat.iterate undo_prev n s = s)
      ∧ undo (Nat.iterate undo_prev n s) = undo s
      ∧ (charAt (cstr i.line) 0 = 'u' →
          ∃ r : Entered,
            main_step s i = Outcome.returned r
              ∧ r.st.total = (undo_prev s).total
              ∧ r.st.history = (undo_prev s).history
              ∧ r.st.prevs = (undo_prev s).prevs) := by
  refine ⟨fun h => ⟨?_, iterate_undo_prev_of_nil n s h⟩, undo_iterate_undo_prev n s,
    main_step_undo s i⟩
  simp [undo_prev, h]

/-- C6 at a concrete state: the fresh ledger after one undo has no predecessor
left; seven further undos change nothing, and neither does the line `u`. -/
theorem C6_undo_at_boundary_witness :
    (undo_prev fresh).prevs = []
      ∧ Nat.iterate undo_prev 7 (undo_prev fresh) = undo_prev fresh
      ∧ undo (Nat.iterate undo_prev 7 (undo_prev fresh)) = undo (undo_prev fresh)
      ∧ ∃ r : Entered,
          main_step (undo_prev fresh) (typed "u\n") = Outcome.returned r
            ∧ r.st.total = (undo_prev (undo_prev fresh)).total
            ∧ r.st.history = (undo_prev (undo_prev fresh)).history
            ∧ r.st.prevs = (undo_prev (undo_prev fresh)).prevs :=
  ⟨by decide!, ((C6_undo_at_boundary (undo_prev fresh) 7 (typed "u\n")).1 (by decide!)).2,
    (C6_undo_at_boundary (undo_prev fresh) 7 (typed "u\n")).2.1,
    (C6_undo_at_boundary (undo_prev fresh) 7 (typed "u\n")).2.2 (by decide)⟩

/-- C8 (counterexample): the line `-3` goes on to "Find the number", its first
byte is `-`, and `get_entered` returns with the mode `+` and the pending value
-3. -/
theorem C8_leading_minus_counterexample :
    reaches_find_number noon (fun _ => NUL) { fresh with mode := '+' } "-3\n".toList = true
      ∧ charAt "-3\n".toList 0 = '-'
      ∧ (get_entered noon (fun _ => NUL) { fresh with mode := '+' } "-3\n".toList).state.map
          (fun s => (s.mode, s.entered)) = some ('+', -3) := by
  decide!

/-- C8 (amended): for every line that reaches "Find the number", `get_entered`
returns, and the mode it leaves is `+` when `line[0]` is `+` or the byte
`line[strlen(line) - 2]` is `+`; otherwise `-` when that byte is `-`; otherwise
the mode it was called with (`+` in the main loop).  A `-` in front does not
change the mode. -/
theorem C8_numeric_entry_mode (theTime : Tm) (below : Nat → Char) (s : State) (buf : List Char)
    (h : reaches_find_number theTime below s (cstr buf) = true) :
    ∃ r : Entered,
      get_entered theTime below s buf = Outcome.returned r
        ∧ r.st.mode =
            if charAt (cstr buf) 0 = '+'
                ∨ lineAt below (cstr buf) (((cstr buf).length : Int) - 2) = '+' then '+'
            else if lineAt below (cstr buf) (((cstr buf).length : Int) - 2) = '-' then '-'
            else s.mode := by
  simp only [reaches_find_number, returns_early, Bool.and_eq_true, Bool.not_eq_true',
    decide_eq_false_iff_not, not_or] at h
  obtain ⟨⟨h1, h2, h3, h4, h5, h6, h7, h8, h9, h10, h11, h12, h13, h14⟩, hs⟩ := h
  cases hsc : save_custom theTime s (cstr buf) with
  | none => simp [hsc] at hs
  | some r0 =>
    refine ⟨find_number below (quicksave theTime
      { r0 with faults := (if (cstr buf).length < 3
          then [Fault.line_index (((cstr buf).length : Int) - 3)] else []) ++ r0.faults }
      (cstr buf)) (cstr buf), ?_, ?_⟩
    · have h9a : ¬ cstr buf = ['+', '\n'] := h9
      have h10a : ¬ cstr buf = ['.', '.', '\n'] := h10
      have h13a : ¬ streq_at below (cstr buf) (((cstr buf).length : Int) - 3) ['.', '.', '\n']
          = true := h13
      have h14a : ¬ cstr buf = ['-', '\n'] := h14
      simp [get_entered, h1, h2, h3, h4, h5, h6, h7, h8, h9a, h10a, h11, h12, h13a, h14a, hsc]
    · rw [find_number_mode, quicksave_mode, save_custom_mode theTime s (cstr buf) r0 hsc]

/-- C8 (amended) at concrete inputs: the line `3-` leaves the mode `-`. -/
theorem C8_numeric_entry_mode_witness :
    reaches_find_number noon (fun _ => NUL) { fresh with mode := '+' } (cstr "3-\n".toList) = true
      ∧ ∃ r : Entered,
          get_entered noon (fun _ => NUL) { fresh with mode := '+' } "3-\n".toList
              = Outcome.returned r
            ∧ r.st.mode = '-' := by
  refine ⟨by decide!, ?_⟩
  obtain ⟨r, hr, hm⟩ :=
    C8_numeric_entry_mode noon (fun _ => NUL) { fresh with mode := '+' } "3-\n".toList
      (by decide!)
  exact ⟨r, hr, by rw [hm]; decide!⟩

/-- C9 (evaluation at the failing input): `3-` moves the total from 0 to -3 and
the blank line after it moves the total from -3 to 0. -/
theorem C9_repeat_after_trailing_minus_eval :
    (run fresh [typed "3-\n"]).map State.total = some (-3)
      ∧ (run fresh [typed "3-\n", typed "\n"]).map State.total = some 0 := by
  decide!

/-- C10: when the node `history` has code `R`, each of the lines `\n`, `+\n`
and `..\n` makes `get_entered` return the pending value 0, and the turn of the
main loop leaves the total and the history as they were. -/
theorem C10_repeat_after_clear (s : State) (i : Input) (hR : s.history.commentCode = 'R')
    (hl : i.line = "\n".toList ∨ i.line = "+\n".toList ∨ i.line = "..\n".toList) :
    ∃ r : Entered,
      get_entered i.theTime i.below { s with mode := '+' } i.line = Outcome.returned r
        ∧ r.st.entered = 0
        ∧ main_step s i = Outcome.returned r
        ∧ r.st.total = s.total
        ∧ r.st.history = s.history
        ∧ r.st.prevs = s.prevs := by
  rcases hl with h | h | h <;>
    simp [main_step, get_entered, h, hR, do_math, cstr, NUL, charAt]

/-- C10 at a concrete input: a blank line typed after `5` and `c`. -/
theorem C10_repeat_after_clear_witness :
    ∃ r : Entered,
      get_entered noon (fun _ => NUL)
          { clear_register noon (do_math noon { fresh with mode := '+', entered := 5 })
            with mode := '+' } "\n".toList = Outcome.returned r
        ∧ r.st.entered = 0
        ∧ main_step (clear_register noon (do_math noon { fresh with mode := '+', entered := 5 }))
            (typed "\n") = Outcome.returned r
        ∧ r.st.total
            = (clear_register noon (do_math noon { fresh with mode := '+', entered := 5 })).total
        ∧ r.st.history
            = (clear_register noon (do_math noon { fresh with mode := '+', entered := 5 })).history
        ∧ r.st.prevs
            = (clear_register noon (do_math noon { fresh with mode := '+', entered := 5 })).prevs :=
  C10_repeat_after_clear
    (clear_register noon (do_math noon { fresh with mode := '+', entered := 5 })) (typed "\n")
    (by decide!) (Or.inl (by decide))

/-- C11: for every ledger and every integer `n` in the range of `int`, written
in decimal, each of the lines `..n` and `n..` makes `get_entered` return with
the pending value `history->number * n`; nothing else of the state changes, no
file is saved and no access is out of range. -/
theorem C11_repeat_times (theTime : Tm) (below : Nat → Char) (s : State) (n : Int)
    (_hn : -2 ^ 31 ≤ n ∧ n < 2 ^ 31) :
    get_entered theTime below s (['.', '.'] ++ intDigits n ++ ['\n'])
        = Outcome.returned
            { st := { s with entered := s.history.number * (n : ℚ) }, saved := [], faults := [] }
    ∧ get_entered theTime below s (intDigits n ++ ['.', '.', '\n'])
        = Outcome.returned
            { st := { s with entered := s.history.number * (n : ℚ) }, saved := [], faults := [] } := by
  obtain ⟨sign, ds, hd, hs, hne, hall, hval⟩ := intDigits_spec n
  have hnn : ∀ c ∈ intDigits n, c ≠ NUL ∧ c ≠ '.' ∧ c ≠ '+' ∧ c ≠ '\n' ∧ c ≠ 'q' ∧ c ≠ 'Q' ∧ c ≠ 'c'
      ∧ c ≠ 'C' ∧ c ≠ 'l' ∧ c ≠ '*' ∧ c ≠ 'h' ∧ c ≠ 'u' := by
    intro c hc
    rw [hd] at hc
    rcases List.mem_append.mp hc with h | h
    · rcases hs with ⟨rfl, _⟩ | ⟨rfl, _⟩
      · simp at h
      · have : c = '-' := by simpa using h
        subst this
        decide
    · have hdc := hall c h
      exact ⟨digit_ne c _ hdc (by decide), digit_ne c _ hdc (by decide),
        digit_ne c _ hdc (by decide), digit_ne c _ hdc (by decide), digit_ne c _ hdc (by decide),
        digit_ne c _ hdc (by decide), digit_ne c _ hdc (by decide), digit_ne c _ hdc (by decide),
        digit_ne c _ hdc (by decide), digit_ne c _ hdc (by decide), digit_ne c _ hdc (by decide),
        digit_ne c _ hdc (by decide)⟩
  have hne2 : intDigits n ≠ [] := by
    rw [hd]; simp [hne]
  have hs1 : scan_d (intDigits n ++ ['\n']) = some n := scan_d_intDigits n _ (by decide)
  have hs2 : scan_d (intDigits n ++ ['.', '.', '\n']) = some n := scan_d_intDigits n _ (by decide)
  generalize intDigits n = X at hnn hne2 hs1 hs2
  obtain ⟨x, xs, rfl⟩ := List.exists_cons_of_ne_nil hne2
  exact ⟨get_entered_front_dots theTime below s n x xs (fun c hc => (hnn c hc).1) hs1,
    get_entered_rear_dots theTime below s n x xs (fun c hc => (hnn c hc).1)
      (hnn x (List.mem_cons_self _ _)).2 hs2⟩

/-- C11 at a concrete input: the lines `..3` and `3..` typed after `7`. -/
theorem C11_repeat_times_witness :
    (-2 ^ 31 ≤ (3 : Int) ∧ (3 : Int) < 2 ^ 31)
    ∧ get_entered noon (fun _ => NUL) (do_math noon { fresh with mode := '+', entered := 7 })
          "..3\n".toList
        = Outcome.returned
            { st := { do_math noon { fresh with mode := '+', entered := 7 } with
                        entered := (7 : ℚ) * ((3 : Int) : ℚ) },
              saved := [], faults := [] }
    ∧ get_entered noon (fun _ => NUL) (do_math noon { fresh with mode := '+', entered := 7 })
          "3..\n".toList
        = Outcome.returned
            { st := { do_math noon { fresh with mode := '+', entered := 7 } with
                        entered := (7 : ℚ) * ((3 : Int) : ℚ) },
              saved := [], faults := [] } :=
  ⟨by norm_num,
    C11_repeat_times noon (fun _ => NUL) (do_math noon { fresh with mode := '+', entered := 7 }) 3
      (by norm_num)⟩

/-- C12: from the fresh ledger the lines `5`, `-3`, a blank line, `u` and `..2`
give the totals 5, 2, -1, 2 and -4; the nodes recorded after the two
placeholders are `a` 5, `s` -3 and, after the blank line, a second `s` -3,
which the undo removes; at the end they are `a` 5, `s` -3 and `s` -6. -/
theorem C12_scenario :
    [1, 2, 3, 4, 5].map (fun k =>
        (run fresh ([typed "5\n", typed "-3\n", typed "\n", typed "u\n", typed "..2\n"].take k)).map
          State.total)
      = [some 5, some 2, some (-1), some 2, some (-4)]
    ∧ (run fresh [typed "5\n", typed "-3\n", typed "\n"]).map
        (fun s => ((chain s).drop 2).map (fun a => (a.commentCode, a.number, a.runningTotal)))
      = some [('a', 5, 5), ('s', -3, 2), ('s', -3, -1)]
    ∧ (run fresh [typed "5\n", typed "-3\n", typed "\n", typed "u\n"]).map
        (fun s => ((chain s).drop 2).map (fun a => (a.commentCode, a.number, a.runningTotal)))
      = some [('a', 5, 5), ('s', -3, 2)]
    ∧ (run fresh [typed "5\n", typed "-3\n", typed "\n", typed "u\n", typed "..2\n"]).map
        (fun s => ((chain s).drop 2).map (fun a => (a.commentCode, a.number, a.runningTotal)))
      = some [('a', 5, 5), ('s', -3, 2), ('s', -6, -4)] := by
  decide!

/-- C13 (evaluation at the failing input): on the two lines `5` and `#c`,
`sum_log` yields 10, whatever the 80 bytes of the array `good` were at the
start: the line that begins with `#` adds the 5 of the line before it once
more.  On the single line `5 # ignore this` it yields 5, as on the line `5`. -/
theorem C13_comment_line_eval :
    ∀ good0 : Fin 80 → Char,
      sum_log (List.ofFn good0) "5\n#c\n".toList = 10
        ∧ sum_log (List.ofFn good0) "5 # ignore this\n".toList = 5
        ∧ sum_log (List.ofFn good0) "5\n".toList = 5 := by
  intro good0
  have hg : (List.ofFn good0).length = 80 := List.length_ofFn _
  generalize List.ofFn good0 = g at hg
  have e1 : fgets_all 80 "5\n#c\n".toList [] = ["5\n".toList, "#c\n".toList] := by decide
  have e2 : fgets_all 80 "5 # ignore this\n".toList [] = ["5 # ignore this\n".toList] := by
    decide
  have e3 : fgets_all 80 "5\n".toList [] = ["5\n".toList] := by decide
  refine ⟨?_, ?_, ?_⟩
  · rw [sum_log, e1, sum_log_lines, List.foldl_cons, List.foldl_cons, List.foldl_nil,
      sum_log_line_copy _ "5\n".toList (by decide) (by decide) (by simp [hg]),
      sum_log_line_hash _ "#c\n".toList (by decide)]
    simp [streq, scan_number, atof, strtod, cstr, NUL, charAt, isspace, isdigit, natOfDigits,
      digitVal, scan_exponent, scale10]
    norm_num
  · rw [sum_log, e2, sum_log_lines, List.foldl_cons, List.foldl_nil,
      sum_log_line_copy _ _ (by decide) (by decide) (by simp [hg])]
    simp [streq, scan_number, atof, strtod, cstr, NUL, charAt, isspace, isdigit, natOfDigits,
      digitVal, scan_exponent, scale10]
  · rw [sum_log, e3, sum_log_lines, List.foldl_cons, List.foldl_nil,
      sum_log_line_copy _ _ (by decide) (by decide) (by simp [hg])]
    simp [streq, scan_number, atof, strtod, cstr, NUL, charAt, isspace, isdigit, natOfDigits,
      digitVal, scan_exponent, scale10]

/-- C14 (evaluation at the failing input): on the lines `TTAB LOG`, `x<tab>+5`
and `y #<tab>+7`, `sum_log` yields 12 when the byte `good[9]` starts as `NUL`
(ttab log mode is entered and the marker after the `#` is read as well), and 0
otherwise (the line `TTAB LOG` is not recognised); it never yields 5. -/
theorem C14_marker_after_comment_eval :
    ∀ good0 : Fin 80 → Char,
      sum_log (List.ofFn good0) "TTAB LOG\nx\t+5\ny #\t+7\n".toList
        = if good0 9 = NUL then 12 else 0 := by
  intro good0
  have hg : (List.ofFn good0).length = 80 := List.length_ofFn _
  rw [← charAt_ofFn_nine good0]
  generalize List.ofFn good0 = g at hg
  have e1 : fgets_all 80 "TTAB LOG\nx\t+5\ny #\t+7\n".toList []
      = ["TTAB LOG\n".toList, "x\t+5\n".toList, "y #\t+7\n".toList] := by decide
  rw [sum_log, e1, sum_log_lines, List.foldl_cons, List.foldl_cons, List.foldl_cons,
    List.foldl_nil, sum_log_line_ttab g hg]
  have hl : (List.drop 9 g).length = 71 := by simp [hg]
  generalize List.drop 9 g = t at hl
  by_cases h : charAt g 9 = NUL
  · simp only [h, decide_True, if_true]
    rw [sum_log_line_copy _ "x\t+5\n".toList (by decide) (by decide) (by simp [hl])]
    simp [streq, scan_number, atof, strtod, cstr, NUL, charAt, isspace, isdigit, natOfDigits,
      digitVal, scan_exponent, scale10]
    rw [sum_log_line_copy _ _ (by decide) (by decide) (by simp [hl])]
    simp [streq, scan_number, atof, strtod, cstr, NUL, charAt, isspace, isdigit, natOfDigits,
      digitVal, scan_exponent, scale10]
    norm_num
  · simp only [h, decide_False, if_false]
    rw [sum_log_line_copy _ "x\t+5\n".toList (by decide) (by decide) (by simp [hl])]
    simp [streq, scan_number, atof, strtod, cstr, NUL, charAt, isspace, isdigit, natOfDigits,
      digitVal, scan_exponent, scale10]
    rw [sum_log_line_copy _ _ (by decide) (by decide) (by simp [hl])]
    simp [streq, scan_number, atof, strtod, cstr, NUL, charAt, isspace, isdigit, natOfDigits,
      digitVal, scan_exponent, scale10]

/-- C15 (amended): on every stream of lines that hold one number each (one
token without white space in front, not starting with `#`, at most 78 bytes and
a newline, not the separator line), `sum_log_stdin` and `sum_log` compute the
same total, whatever the 80 bytes of the array `good` of `sum_log` hold. -/
theorem C15_numbers_one_per_line (good0 good1 : List Char) (lines : List (List Char))
    (hg : good1.length = MAX_STRING_LEN) (h : ∀ X ∈ lines, plain_number X = true) :
    sum_log_stdin good0 (stream_of_lines lines) = sum_log good1 (stream_of_lines lines) := by
  have ht : ∀ X ∈ lines, one_token X = true := fun X hX => (plain_number_spec X (h X hX)).1
  have e1 : sum_log_stdin good0 (stream_of_lines lines)
      = (lines.map (fun X => atof (X ++ ['\n']))).sum := by
    rw [sum_log_stdin, fgets_all_tokens lines ht, sum_log_stdin_lines_tokens good0 lines ht]
    simp
  have e2 : sum_log good1 (stream_of_lines lines)
      = (lines.map (fun X => atof (X ++ ['\n']))).sum := by
    rw [sum_log, fgets_all_tokens lines ht, sum_log_lines,
      sum_log_lines_numbers lines h _ rfl hg]
    simp
  exact e1.trans e2.symm

/-- C15 at a concrete input: the stream `1`, `2.5`, `-3`, with zero bytes in
`good`. -/
theorem C15_numbers_one_per_line_witness :
    zeroes.length = MAX_STRING_LEN
    ∧ (∀ X ∈ ["1".toList, "2.5".toList, "-3".toList], plain_number X = true)
    ∧ sum_log_stdin zeroes "1\n2.5\n-3\n".toList = sum_log zeroes "1\n2.5\n-3\n".toList :=
  ⟨by decide, by decide,
    C15_numbers_one_per_line zeroes zeroes ["1".toList, "2.5".toList, "-3".toList] (by decide)
      (by decide)⟩

/-- C15 (counterexample): on the line `1 2` the piped summation cuts the line
at the space, adds both pieces and yields 3; the summation of a file reads one
number from the line and yields 1.  The array `good` of `sum_log` holds zero
bytes here. -/
theorem C15_two_numbers_counterexample :
    strtok_all "1 2\n".toList [] = ["1".toList, "2\n".toList]
    ∧ sum_log_stdin zeroes "1 2\n".toList = 3 ∧ sum_log zeroes "1 2\n".toList = 1 := by
  decide!

/-- C16 (evaluation at the failing input): the piped line that holds `2 ^ 218`
is rendered by `%lf` with 66 digits in front of the point; `snprintf` keeps 63
bytes of the rendering, the loop takes the zero that ends them away, and the
line printed is the first 62 digits of the integer part.  The piped line that
holds `2 ^ 206` is rendered with 63 digits in front of the point; the 63 bytes
kept end in `4`, and the terminator is written at index 64, one past the end of
the array `numString`. -/
theorem C16_long_rendering_eval :
    sum_log_stdin zeroes
        "421249166674228746791672110734681729275580381602196445017243910144\n".toList = 2 ^ 218
    ∧ fmt_lf (2 ^ 218)
      = "421249166674228746791672110734681729275580381602196445017243910144.000000".toList
    ∧ truncate_index (snprintf NUM_STRING_LEN (fmt_lf (2 ^ 218))) = 62
    ∧ sum_log_stdin_output zeroes
        "421249166674228746791672110734681729275580381602196445017243910144\n".toList
      = some "42124916667422874679167211073468172927558038160219644501724391\n".toList
    ∧ sum_log_stdin zeroes
        "102844034832575377634685573909834406561420991602098741459288064\n".toList = 2 ^ 206
    ∧ fmt_lf (2 ^ 206)
      = "102844034832575377634685573909834406561420991602098741459288064.000000".toList
    ∧ truncate_index (snprintf NUM_STRING_LEN (fmt_lf (2 ^ 206))) = NUM_STRING_LEN
    ∧ sum_log_stdin_output zeroes
        "102844034832575377634685573909834406561420991602098741459288064\n".toList = none := by
  decide!

/-- C18 (evaluation at the failing input): each of the lines `x-` and `0-` goes
on to "Find the number" with the value 0, and the turn of the main loop adds a
node with code `s` and number 0 to the history (three nodes instead of two);
the lines `abc` and `0` leave the total and the history as they were. -/
theorem C18_zero_with_minus_eval :
    (strtod "x-\n".toList).getD 0 = 0 ∧ (strtod "0-\n".toList).getD 0 = 0
    ∧ (chain fresh).length = 2
    ∧ (run fresh [typed "x-\n"]).map
        (fun s => (s.total, s.history.commentCode, s.history.number, (chain s).length))
      = some (0, 's', 0, 3)
    ∧ (run fresh [typed "0-\n"]).map
        (fun s => (s.total, s.history.commentCode, s.history.number, (chain s).length))
      = some (0, 's', 0, 3)
    ∧ (run fresh [typed "abc\n"]).map (fun s => (s.total, s.history, s.prevs))
      = some (fresh.total, fresh.history, fresh.prevs)
    ∧ (run fresh [typed "0\n"]).map (fun s => (s.total, s.history, s.prevs))
      = some (fresh.total, fresh.history, fresh.prevs) := by
  decide!

/-- C19 (evaluation at the failing input): on the line `s my file.txt` the
location handed to `save_file`, and kept in `saveLocation`, is `file.txt`, not
`my file.txt`; on the line `s out.log` it is `out.log`. -/
theorem C19_save_path_eval :
    (get_entered noon (fun _ => NUL) fresh "s my file.txt\n".toList).entered.map
        (fun r => (r.saved.map Prod.fst, r.st.saveLocation))
      = some (["file.txt".toList], some "file.txt".toList)
    ∧ (get_entered noon (fun _ => NUL) fresh "s out.log\n".toList).entered.map
        (fun r => (r.saved.map Prod.fst, r.st.saveLocation))
      = some (["out.log".toList], some "out.log".toList) := by
  decide!

/-- C20 (evaluation at the failing input): with no save location stored the
line `sx` makes `get_entered` use the NULL `saveLocation`; with the location
`a` stored it returns after cutting the location to the empty string, and once
more after writing in front of the empty string; the line `5` makes it read
`line[-1]`, and a line of the single byte `5` also `line[-2]`. -/
theorem C20_failing_access_eval :
    get_entered noon (fun _ => NUL) fresh "sx\n".toList = Outcome.crashed
    ∧ (get_entered noon (fun _ => NUL) { fresh with saveLocation := some "a".toList }
          "sx\n".toList).entered.map (fun r => (r.st.saveLocation, r.faults))
      = some (some [], [])
    ∧ (get_entered noon (fun _ => NUL) { fresh with saveLocation := some [] }
          "sx\n".toList).entered.map (fun r => (r.st.saveLocation, r.faults))
      = some (some [], [Fault.saveLocation_index (-1)])
    ∧ (get_entered noon (fun _ => NUL) fresh "5\n".toList).entered.map
        (fun r => (r.st.entered, r.faults))
      = some (5, [Fault.line_index (-1)])
    ∧ (get_entered noon (fun _ => NUL) fresh "5".toList).entered.map
        (fun r => (r.st.entered, r.faults))
      = some (5, [Fault.line_index (-2), Fault.line_index (-1)]) := by
  decide!

/-- C21: in every state the main loop reaches from the ledger `main` builds,
on any lines, the history is a list of appended nodes in front of the two nodes
of the start (or of the first of them, once an undo has removed the second),
and every appended node has the code `a`, `s` or `R`, hence not `u`, not `NUL`
and no code `print_log` has no case for; with the code `a` its number is
positive. -/
theorem C21_recorded_codes (junk0 junk1 : action) (inputs : List Input) (s : State)
    (h : run (main_init junk0 junk1) inputs = some s) :
    ∃ appended : List action,
      (s.history :: s.prevs = appended ++ [create_node junk1, create_node junk0]
        ∨ s.history :: s.prevs = appended ++ [create_node junk0])
      ∧ ∀ a ∈ appended,
          (a.commentCode = 'a' ∨ a.commentCode = 's' ∨ a.commentCode = 'R')
            ∧ a.commentCode ≠ 'u' ∧ a.commentCode ≠ NUL
            ∧ (a.commentCode = 'a' → 0 < a.number) := by
  have h0 : ledger_ok junk0 junk1 (main_init junk0 junk1) :=
    ⟨[], Or.inl rfl, by simp⟩
  obtain ⟨appended, hd, ha⟩ := ledger_ok_run junk0 junk1 inputs _ s h0 h
  refine ⟨appended, hd, ?_⟩
  intro a hmem
  have hr := ha a hmem
  simp only [recorded_ok, Bool.or_eq_true, Bool.and_eq_true, beq_iff_eq,
    decide_eq_true_eq] at hr
  rcases hr with (⟨h1, h2⟩ | h1) | h1
  · exact ⟨Or.inl h1, by rw [h1]; decide, by rw [h1]; decide, fun _ => h2⟩
  · exact ⟨Or.inr (Or.inl h1), by rw [h1]; decide, by rw [h1]; decide,
      fun h3 => absurd (h1.symm.trans h3) (by decide)⟩
  · exact ⟨Or.inr (Or.inr h1), by rw [h1]; decide, by rw [h1]; decide,
      fun h3 => absurd (h1.symm.trans h3) (by decide)⟩

/-- C21 at a concrete input: the lines `5`, `3-`, `-2`, `c`, `u` and `7` typed
on the fresh ledger; the codes in the chain are those of the two nodes of the
start, then `a`, `s`, `s` and `a`. -/
theorem C21_recorded_codes_witness :
    (run fresh [typed "5\n", typed "3-\n", typed "-2\n", typed "c\n", typed "u\n",
        typed "7\n"]).map (fun s => (chain s).map action.commentCode)
      = some [NUL, NUL, 'a', 's', 's', 'a']
    ∧ ∃ s : State,
        run fresh [typed "5\n", typed "3-\n", typed "-2\n", typed "c\n", typed "u\n",
          typed "7\n"] = some s
        ∧ ∃ appended : List action,
            (s.history :: s.prevs = appended ++ [create_node zeroed, create_node zeroed]
              ∨ s.history :: s.prevs = appended ++ [create_node zeroed])
            ∧ ∀ a ∈ appended,
                (a.commentCode = 'a' ∨ a.commentCode = 's' ∨ a.commentCode = 'R')
                  ∧ a.commentCode ≠ 'u' ∧ a.commentCode ≠ NUL
                  ∧ (a.commentCode = 'a' → 0 < a.number) :=
  ⟨by decide!,
    Exists.elim
      (Option.isSome_iff_exists.mp
        (by decide! : (run fresh [typed "5\n", typed "3-\n", typed "-2\n", typed "c\n",
          typed "u\n", typed "7\n"]).isSome = true))
      (fun s hs => ⟨s, hs, C21_recorded_codes zeroed zeroed _ s hs⟩)⟩

/-- C23: in the ledger `main` builds, `history` is the second node from
`create_node`, with number 0, and its predecessor is the first node, which has
none.  The first line starting with `u` therefore takes the branch of
`undo_prev`: the value it reports is `history->number * -1 = 0`, the total
stays 0, and `history` becomes the first node.  After that `undo_prev` changes
nothing, and a second line starting with `u` leaves the total and the history
as they are. -/
theorem C23_undo_on_fresh_ledger (junk0 junk1 : action) (i k : Input)
    (hi : charAt (cstr i.line) 0 = 'u') (hk : charAt (cstr k.line) 0 = 'u') :
    (main_init junk0 junk1).history = create_node junk1
      ∧ (main_init junk0 junk1).prevs = [create_node junk0]
      ∧ (main_init junk0 junk1).history.number * -1 = 0
      ∧ undo_prev (main_init junk0 junk1) ≠ main_init junk0 junk1
      ∧ ∃ r : Entered,
          main_step (main_init junk0 junk1) i = Outcome.returned r
            ∧ r.st.total = 0
            ∧ r.st.history = create_node junk0
            ∧ r.st.prevs = []
            ∧ undo_prev r.st = r.st
            ∧ ∃ r2 : Entered,
                main_step r.st k = Outcome.returned r2
                  ∧ r2.st.total = 0
                  ∧ r2.st.history = create_node junk0
                  ∧ r2.st.prevs = [] := by
  refine ⟨rfl, rfl, by simp [main_init, create_node], ?_, ?_⟩
  · intro h
    have := congrArg State.prevs h
    simp [undo_prev, main_init] at this
  · obtain ⟨r, h1, h2, h3, h4⟩ := main_step_undo (main_init junk0 junk1) i hi
    have e2 : r.st.total = 0 := by rw [h2]; simp [undo_prev, main_init, create_node]
    have e3 : r.st.history = create_node junk0 := by rw [h3]; simp [undo_prev, main_init]
    have e4 : r.st.prevs = [] := by rw [h4]; simp [undo_prev, main_init]
    have e5 : undo_prev r.st = r.st := by simp [undo_prev, e4]
    obtain ⟨r2, g1, g2, g3, g4⟩ := main_step_undo r.st k hk
    rw [e5] at g2 g3 g4
    exact ⟨r, h1, e2, e3, e4, e5, r2, g1, g2.trans e2, g3.trans e3, g4.trans e4⟩

/-- C23 at a concrete input: the line `u` typed twice on the fresh ledger. -/
theorem C23_undo_on_fresh_ledger_witness :
    fresh.history = create_node zeroed
      ∧ fresh.prevs = [create_node zeroed]
      ∧ fresh.history.number * -1 = 0
      ∧ undo_prev fresh ≠ fresh
      ∧ ∃ r : Entered,
          main_step fresh (typed "u\n") = Outcome.returned r
            ∧ r.st.total = 0
            ∧ r.st.history = create_node zeroed
            ∧ r.st.prevs = []
            ∧ undo_prev r.st = r.st
            ∧ ∃ r2 : Entered,
                main_step r.st (typed "u\n") = Outcome.returned r2
                  ∧ r2.st.total = 0
                  ∧ r2.st.history = create_node zeroed
                  ∧ r2.st.prevs = [] :=
  C23_undo_on_fresh_ledger zeroed zeroed (typed "u\n") (typed "u\n") (by decide) (by decide)

end Ttab
